import Mathlib

/-!
Verification of the chrononoteai note-processing core (package `notes`,
file `notes.go`), shallowly embedded in Lean 4.

The embedding models the Go source:
  * `parseNotes`   — splits the buffer on the delimiter `---` (Go
    `strings.Split`) and decodes each metadata segment;
  * `validateNote` — required-field and date-format checks;
  * `buildMarkdownPath` — date to archive path (Go `time.Parse`,
    `time.Format`, `filepath.Join`);
  * `formatNoteContent` / `removeQuotesFromDateField` — canonical
    serialization (Go `yaml.Marshal` plus a post-processing pass);
  * `ProcessNotes` — the orchestrator, parameterised by a file-system
    capability (the Go `FileSystem` interface), instrumented with an
    explicit trace of the capability calls it issues.

External library functions (`gopkg.in/yaml.v3`, `time`, `path/filepath`)
are modelled by executable Lean functions faithful to their documented
behaviour on the flat fragment this program uses (block mappings with
scalar string values and a block sequence of scalar tags; yaml.v3 default
four-space sequence indentation, as pinned by the repository test
`TestFormatNoteContent_PostProcessing`).
-/

deriving instance DecidableEq for Except

/-- Whitespace recognised by Go `strings.TrimSpace` on ASCII input
(space, tab, newline, carriage return, vertical tab, form feed). -/
def isSpaceChar (c : Char) : Bool :=
  c = ' ' || c = '\t' || c = '\n' || c = '\x0d' || c = '\x0b' || c = '\x0c'

/-- Trim leading and trailing whitespace from a character list
(models Go `strings.TrimSpace`). -/
def trimChars (l : List Char) : List Char :=
  ((l.dropWhile isSpaceChar).reverse.dropWhile isSpaceChar).reverse

/-- Split a character list at every occurrence of the character `sep`
(models Go `strings.Split` with a one-character separator; also used for
line splitting). The result is always non-empty. -/
def splitOnCharC (sep : Char) : List Char → List (List Char)
  | [] => [[]]
  | c :: rest =>
    if c = sep then
      [] :: splitOnCharC sep rest
    else
      match splitOnCharC sep rest with
      | [] => [[c]]
      | g :: gs => (c :: g) :: gs

/-- Split a character list at every occurrence of the three-character
delimiter `---`, leftmost first, non-overlapping (models Go
`strings.Split(data, "---")`). -/
def splitDashes : List Char → List (List Char)
  | [] => [[]]
  | '-' :: '-' :: '-' :: rest => [] :: splitDashes rest
  | c :: rest =>
    match splitDashes rest with
    | [] => [[c]]
    | g :: gs => (c :: g) :: gs

/-- Pair up the post-preamble segments positionally: metadata, body,
metadata, body, …; a trailing metadata segment without a body is paired
with the empty body (models the Go loop `for i := 1; i < len(entries);
i += 2` with `content = ""` when `i+1` is out of range). -/
def pairUp : List (List Char) → List (List Char × List Char)
  | [] => []
  | [m] => [(m, [])]
  | m :: c :: rest => (m, c) :: pairUp rest

/-- Join a list of character lists with the character `sep` between
consecutive elements. -/
def joinWithChar (sep : Char) : List (List Char) → List Char
  | [] => []
  | [c] => c
  | c :: cs => c ++ sep :: joinWithChar sep cs

/-- Decimal digit test, as in Go `time` parsing (ASCII `0`–`9`). -/
def isDigitC (c : Char) : Bool :=
  '0' ≤ c && c ≤ '9'

/-- Numeric value of an ASCII decimal digit. -/
def digitVal (c : Char) : Nat :=
  c.toNat - 48

/-- Leap-year rule used by Go `time` (proleptic Gregorian). -/
def isLeapYear (y : Nat) : Bool :=
  y % 4 = 0 && (y % 100 ≠ 0 || y % 400 = 0)

/-- Number of days in a month, as checked by Go `time.Parse`. -/
def daysInMonth (y m : Nat) : Nat :=
  if m = 2 then (if isLeapYear y then 29 else 28)
  else if m = 4 || m = 6 || m = 9 || m = 11 then 30
  else 31

/-- A parsed calendar date. -/
structure Date where
  year : Nat
  month : Nat
  day : Nat
deriving DecidableEq

/-- Model of Go `time.Parse("2006-01-02", s)`: exactly ten characters,
four-digit year, literal dash, two-digit zero-padded month, literal dash,
two-digit zero-padded day, month in 1..12 and day in range for the
month (Go rejects out-of-range components with `month out of range` /
`day out of range`). Returns `none` exactly when Go returns an error. -/
def parseDate (s : String) : Option Date :=
  match s.data with
  | [y1, y2, y3, y4, h1, m1, m2, h2, d1, d2] =>
    if isDigitC y1 && isDigitC y2 && isDigitC y3 && isDigitC y4 &&
       h1 = '-' && isDigitC m1 && isDigitC m2 &&
       h2 = '-' && isDigitC d1 && isDigitC d2 then
      let y := ((digitVal y1 * 10 + digitVal y2) * 10 + digitVal y3) * 10 + digitVal y4
      let m := digitVal m1 * 10 + digitVal m2
      let d := digitVal d1 * 10 + digitVal d2
      if 1 ≤ m && m ≤ 12 && 1 ≤ d && d ≤ daysInMonth y m then
        some ⟨y, m, d⟩
      else
        none
    else
      none
  | _ => none

/-- ASCII character of a decimal digit value (defensive default for
arguments outside 0..9, which never occur for `n % 10`). -/
def digitChar10 : Nat → Char
  | 0 => '0'
  | 1 => '1'
  | 2 => '2'
  | 3 => '3'
  | 4 => '4'
  | 5 => '5'
  | 6 => '6'
  | 7 => '7'
  | 8 => '8'
  | 9 => '9'
  | _ => '0'

/-- Fuel-driven decimal digit expansion (the fuel is an upper bound on
the number of digits; `natDigs` always supplies enough). -/
def natDigsAux : Nat → Nat → List Char → List Char
  | 0, _, acc => acc
  | fuel + 1, n, acc =>
    let acc2 := digitChar10 (n % 10) :: acc
    if n < 10 then acc2 else natDigsAux fuel (n / 10) acc2

/-- Decimal digit characters of a natural number (most significant
first), as produced by Go integer formatting. -/
def natDigs (n : Nat) : List Char :=
  natDigsAux (n + 1) n []

/-- Zero-pad a decimal rendering on the left to width `w` (models Go
`time` layout fields `2006` / `01` and `fmt.Sprintf("%02d", _)`). -/
def padN (w n : Nat) : List Char :=
  List.replicate (w - (natDigs n).length) '0' ++ natDigs n

/-- String form of `padN`. -/
def padS (w n : Nat) : String :=
  ⟨padN w n⟩

/-- A path component that survives `filepath.Clean` unchanged: non-empty
and neither `.` nor `..`. -/
def goodCompB (c : List Char) : Bool :=
  !c.isEmpty && c ≠ ['.'] && c ≠ ['.', '.']

/-- Resolve `..` components against preceding components, as
`filepath.Clean` does: `..` pops a preceding non-`..` component; at the
top it is dropped when the path is rooted and kept otherwise. `acc` holds
the already-processed components in reverse. -/
def elimDotDot (rooted : Bool) (acc : List (List Char)) : List (List Char) → List (List Char)
  | [] => acc.reverse
  | c :: rest =>
    if c = ['.', '.'] then
      match acc with
      | a :: as =>
        if a = ['.', '.'] then elimDotDot rooted (c :: acc) rest
        else elimDotDot rooted as rest
      | [] =>
        if rooted then elimDotDot rooted [] rest
        else elimDotDot rooted [c] rest
    else
      elimDotDot rooted (c :: acc) rest

/-- Components kept by `filepath.Clean`: non-empty and not `.`. -/
def keepComp (c : List Char) : Bool :=
  !c.isEmpty && c ≠ ['.']

/-- Model of Go `path/filepath.Clean` on Unix paths, at the level of
slash-separated components: drop empty and `.` components, resolve `..`,
re-join, keeping the leading slash of a rooted path; the empty result
becomes `.` (or `/` for a rooted path). -/
def cleanChars (p : List Char) : List Char :=
  if p.isEmpty then ['.']
  else
    let rooted := p.head? = some '/'
    let comps := (splitOnCharC '/' p).filter keepComp
    let comps2 := elimDotDot rooted [] comps
    let body := joinWithChar '/' comps2
    if rooted then '/' :: body
    else if body.isEmpty then ['.'] else body

/-- String form of `cleanChars` (Go `filepath.Clean`). -/
def goClean (s : String) : String :=
  ⟨cleanChars s.data⟩

/-- Model of Go `filepath.Join(a, b)`: empty elements are dropped, the
rest are joined with a slash and the result is cleaned; the all-empty
join is the empty string. -/
def goJoin (a b : String) : String :=
  if a = "" then (if b = "" then "" else goClean b)
  else if b = "" then goClean a
  else goClean (⟨a.data ++ '/' :: b.data⟩)

/-- Model of Go `filepath.Dir`: the cleaned portion of the path up to and
including the final slash (`.` when there is no slash). -/
def goDir (p : String) : String :=
  goClean ⟨(p.data.reverse.dropWhile (fun c => c ≠ '/')).reverse⟩

/-- A base directory in canonical form: non-empty, already clean, with
no trailing slash — every slash-separated component is non-empty and
neither `.` nor `..` (an absolute path additionally begins with a single
slash). -/
def goodBaseChars (b : List Char) : Bool :=
  match splitOnCharC '/' b with
  | [] => false
  | c :: cs =>
    if c.isEmpty then !cs.isEmpty && cs.all goodCompB
    else (c :: cs).all goodCompB

/-- String form of `goodBaseChars`. -/
def goodBaseB (s : String) : Bool :=
  goodBaseChars s.data

/-- The YAML-visible subset of a note (Go struct `FrontMatter`). -/
structure FrontMatter where
  title : String
  date : String
  tags : List String
deriving DecidableEq

/-- A note with metadata and content (Go struct `Note`; the `Content`
field carries the yaml tag `-` and is never encoded or decoded). -/
structure Note where
  title : String
  date : String
  tags : List String
  content : String
deriving DecidableEq

/-- Error values returned by the pipeline, by kind: the YAML decode
errors of `parseNotes`, the three validation errors of `validateNote`
(`errors.New("missing title")`, `errors.New("missing date")`, and the
`time.Parse` error for a malformed date), and file-system capability
errors surfaced by `ProcessNotes`. -/
inductive NoteError
  | yamlError (msg : String)
  | missingTitle
  | missingDate
  | invalidDate (date : String)
  | fsError (msg : String)
deriving DecidableEq

/-- Drop a trailing ` #…` comment from a plain scalar body (a `#` begins
a comment only when preceded by a space). -/
def stripCommentAux : List Char → List Char
  | [] => []
  | c :: rest =>
    if c = ' ' ∧ rest.head? = some '#' then []
    else c :: stripCommentAux rest

/-- Comment stripping for a plain scalar: a leading `#` comments out the
whole value, otherwise only a ` #` suffix is dropped. -/
def stripComment (v : List Char) : List Char :=
  if v.head? = some '#' then [] else stripCommentAux v

/-- Trim trailing whitespace only. -/
def trimRightChars (l : List Char) : List Char :=
  (l.reverse.dropWhile isSpaceChar).reverse

/-- Scalars the YAML resolver reads as null. -/
def nullLike (v : List Char) : Bool :=
  v = ("~").data || v = ("null").data || v = ("Null").data || v = ("NULL").data

/-- Scalars the YAML resolver reads as booleans. -/
def boolLike (v : List Char) : Bool :=
  v = ("true").data || v = ("false").data || v = ("True").data ||
  v = ("False").data || v = ("TRUE").data || v = ("FALSE").data

/-- Scalars the YAML resolver reads as integers (optional sign, then
decimal digits). -/
def intLike (v : List Char) : Bool :=
  if v.isEmpty then false
  else if v.head? = some '+' ∨ v.head? = some '-' then
    !v.tail.isEmpty && v.tail.all isDigitC
  else v.all isDigitC

/-- Digit-and-single-dot body of a decimal float literal. -/
def floatLikeCore (v : List Char) : Bool :=
  v.count '.' = 1 && !(v.filter isDigitC).isEmpty &&
  v.all (fun c => isDigitC c || c = '.')

/-- Scalars the YAML resolver reads as floats (optional sign, digits with
one decimal point). -/
def floatLike (v : List Char) : Bool :=
  if v.head? = some '+' ∨ v.head? = some '-' then floatLikeCore v.tail
  else floatLikeCore v

/-- Numeric value of a digit string. -/
def natVal (l : List Char) : Nat :=
  l.foldl (fun a c => a * 10 + digitVal c) 0

/-- Scalars the YAML resolver reads as timestamps: yaml.v3 accepts the
date-only layout `2006-1-2` (four-digit year, one- or two-digit month and
day, calendar-checked by `time.Parse`). -/
def dateLike (v : List Char) : Bool :=
  match splitOnCharC '-' v with
  | [y, m, d] =>
    y.length = 4 && y.all isDigitC &&
    (m.length = 1 || m.length = 2) && m.all isDigitC &&
    (d.length = 1 || d.length = 2) && d.all isDigitC &&
    1 ≤ natVal m && natVal m ≤ 12 && 1 ≤ natVal d &&
    natVal d ≤ daysInMonth (natVal y) (natVal m)
  | _ => false

/-- Detect a colon that would start a nested mapping inside a plain
scalar (a `:` at the end of the scalar or followed by a space), which the
YAML parser rejects in this position. -/
def hasMapColon : List Char → Bool
  | [] => false
  | c :: rest =>
    if c = ':' ∧ (rest.isEmpty ∨ rest.head? = some ' ') then true
    else hasMapColon rest

/-- Split a line at its first colon: `some (key, rest-after-colon)`. -/
def breakColon : List Char → Option (List Char × List Char)
  | [] => none
  | ':' :: rest => some ([], rest)
  | c :: rest =>
    match breakColon rest with
    | none => none
    | some (k, v) => some (c :: k, v)

/-- Scan a double-quoted scalar body up to the closing quote, decoding
the escapes `\\`, `\"`, `\n`, `\t`; returns the decoded content and the
remainder of the line. -/
def parseDQAux : List Char → List Char → Option (List Char × List Char)
  | [], _ => none
  | '"' :: rest, acc => some (acc.reverse, rest)
  | ['\\'], _ => none
  | '\\' :: c :: rest, acc =>
    if c = 'n' then parseDQAux rest ('\n' :: acc)
    else if c = 't' then parseDQAux rest ('\t' :: acc)
    else if c = '"' then parseDQAux rest ('"' :: acc)
    else if c = '\\' then parseDQAux rest ('\\' :: acc)
    else none
  | c :: rest, acc => parseDQAux rest (c :: acc)

/-- A decoded YAML scalar value position: null, a string, or the empty
flow sequence `[]`. -/
inductive YVal
  | vnull
  | vstr (s : List Char)
  | vemptySeq
deriving DecidableEq

/-- Decode the value part of a mapping entry or sequence item, following
yaml.v3 on the flat fragment used by the program: leading spaces are
insignificant; an absent or commented-out value is null; double-quoted
scalars decode their escapes; `[]` is the empty sequence (other flow
collections are outside the modelled fragment); plain scalars are
comment-stripped and trimmed, and scalars that resolve as null / bool /
int / float behave as yaml.v3 does when decoding into a `string` field
(null gives the zero value, the others are type errors). -/
def parseValue (v : List Char) : Except String YVal :=
  let v1 := v.dropWhile (fun c => c = ' ')
  if v1.isEmpty then .ok .vnull
  else if v1.head? = some '#' then .ok .vnull
  else if v1.head? = some '"' then
    match parseDQAux v1.tail [] with
    | none => .error ("found unexpected end of stream")
    | some (content, after) =>
      let t := after.dropWhile (fun c => c = ' ')
      if t.isEmpty || t.head? = some '#' then .ok (.vstr content)
      else .error ("invalid trailing content after quoted scalar")
  else if v1.head? = some '[' then
    if trimRightChars (stripComment v1) = ['[', ']'] then .ok .vemptySeq
    else .error ("flow sequence not supported")
  else if v1.head? = some '{' then .error ("flow mapping not supported")
  else
    let v2 := trimRightChars (stripComment v1)
    if hasMapColon v2 then .error ("mapping values are not allowed in this context")
    else if nullLike v2 then .ok .vnull
    else if boolLike v2 then .error ("cannot unmarshal bool into string value")
    else if intLike v2 then .error ("cannot unmarshal int into string value")
    else if floatLike v2 then .error ("cannot unmarshal float into string value")
    else .ok (.vstr v2)

/-- Recognise a block sequence item on a trimmed line: `- item` or a
bare dash (null item); returns the raw item text. -/
def seqItemContent (t : List Char) : Option (List Char) :=
  if t.head? = some '-' then
    if t.tail.isEmpty then some []
    else if t.tail.head? = some ' ' then some t.tail.tail
    else none
  else none

/-- Accumulator for decoding the front-matter mapping. -/
structure DecFM where
  title : List Char := []
  date : List Char := []
  tags : List (List Char) := []
deriving DecidableEq

/-- What a pending block sequence would decode into: the `tags` field, a
scalar field (where a sequence is a type error), or an ignored unknown
key. -/
inductive SeqTarget
  | tagsT
  | scalarT
  | ignoredT
deriving DecidableEq

/-- Process one front-matter line (model of one step of
`yaml.Unmarshal` over the flat fragment): blank and comment lines are
skipped, a sequence item feeds the pending sequence target, and a
`key: value` entry at column zero updates the matching field (unknown
keys are ignored). Returns the updated accumulator and pending sequence
target, or the decode error. -/
def decLine (line : List Char) (acc : DecFM) (mode : Option SeqTarget) :
    Except String (DecFM × Option SeqTarget) :=
  let t := trimChars line
  if t.isEmpty then .ok (acc, mode)
  else if t.head? = some '#' then .ok (acc, mode)
  else
    match mode, seqItemContent t with
    | some target, some item =>
      match parseValue item with
      | .error e => .error e
      | .ok v =>
        match target with
        | .tagsT =>
          match v with
          | .vnull => .ok ({ acc with tags := acc.tags ++ [[]] }, mode)
          | .vstr s => .ok ({ acc with tags := acc.tags ++ [s] }, mode)
          | .vemptySeq => .error ("cannot unmarshal nested sequence into string value")
        | .scalarT => .error ("cannot unmarshal sequence into string value")
        | .ignoredT => .ok (acc, mode)
    | _, _ =>
      if line.head? = some ' ' then .error ("did not find expected key")
      else
        match breakColon line with
        | none => .error ("could not find expected colon")
        | some (rawKey, afterColon) =>
          if !afterColon.isEmpty && afterColon.head? ≠ some ' ' then
            .error ("mapping values are not allowed in this context")
          else
            let key := trimChars rawKey
            match parseValue afterColon with
            | .error e => .error e
            | .ok v =>
              if key = ("title").data then
                match v with
                | .vnull => .ok ({ acc with title := [] }, some .scalarT)
                | .vstr s => .ok ({ acc with title := s }, none)
                | .vemptySeq => .error ("cannot unmarshal sequence into string value")
              else if key = ("date").data then
                match v with
                | .vnull => .ok ({ acc with date := [] }, some .scalarT)
                | .vstr s => .ok ({ acc with date := s }, none)
                | .vemptySeq => .error ("cannot unmarshal sequence into string value")
              else if key = ("tags").data then
                match v with
                | .vnull => .ok ({ acc with tags := [] }, some .tagsT)
                | .vstr _ => .error ("cannot unmarshal string into sequence value")
                | .vemptySeq => .ok ({ acc with tags := [] }, none)
              else
                match v with
                | .vnull => .ok (acc, some .ignoredT)
                | _ => .ok (acc, none)

/-- Line-by-line decoder for the flat front-matter mapping (model of
`yaml.Unmarshal` into the Go `Note` struct on the fragment the program
reads and writes): fold `decLine` over the lines, aborting at the first
error. -/
def decLinesAux : List (List Char) → DecFM → Option SeqTarget → Except String DecFM
  | [], acc, _ => .ok acc
  | line :: rest, acc, mode =>
    match decLine line acc mode with
    | .error e => .error e
    | .ok (acc2, mode2) => decLinesAux rest acc2 mode2

/-- Decode a metadata segment into a `FrontMatter` (Go
`yaml.Unmarshal([]byte(metadata), &note)`; absent fields keep their zero
values). -/
def decodeFrontMatterChars (m : List Char) : Except String FrontMatter :=
  match decLinesAux (splitOnCharC '\n' m) {} none with
  | .error e => .error e
  | .ok d => .ok ⟨⟨d.title⟩, ⟨d.date⟩, d.tags.map (fun t => (⟨t⟩ : String))⟩

/-- String-level front-matter decoder. -/
def decodeFrontMatter (s : String) : Except String FrontMatter :=
  decodeFrontMatterChars s.data

/-- Characters that may appear in a scalar yaml.v3 emits in plain
(unquoted) style within the modelled fragment. -/
def plainBodyChar (c : Char) : Bool :=
  c.isAlphanum || c = ' ' || c = '-' || c = '_' || c = '.'

/-- Scalars yaml.v3 emits in plain style in the modelled fragment:
non-empty, single-line, made of unproblematic characters, with no
leading or trailing space, not starting with an indicator, and not
resolving as null / bool / int / float / timestamp (which the emitter
must quote to keep the string type). -/
def plainSafeChars (l : List Char) : Bool :=
  !l.isEmpty && l.all plainBodyChar &&
  l.head? ≠ some ' ' && l.head? ≠ some '-' && l.head? ≠ some '.' &&
  l.getLast? ≠ some ' ' &&
  !nullLike l && !boolLike l && !intLike l && !floatLike l && !dateLike l

/-- Escape a scalar for double-quoted style. -/
def escDQ : List Char → List Char
  | [] => []
  | c :: rest =>
    if c = '\\' then '\\' :: '\\' :: escDQ rest
    else if c = '"' then '\\' :: '"' :: escDQ rest
    else if c = '\n' then '\\' :: 'n' :: escDQ rest
    else if c = '\t' then '\\' :: 't' :: escDQ rest
    else c :: escDQ rest

/-- Emit one scalar as yaml.v3 does in the modelled fragment: plain when
safe, quoted otherwise (yaml.v3 picks single-, double-quoted or block
style by content; the model renders the quoted case in double-quoted
style — the claims below only depend on the plain case and on the fact
that a quoted `date:` line is rewritten wholesale afterwards). -/
def emitScalar (s : String) : String :=
  if plainSafeChars s.data then s else ⟨'"' :: (escDQ s.data ++ ['"'])⟩

/-- Block sequence items of the `tags` field, four-space indented, one
per line, in order (yaml.v3 default indentation, as asserted by the
repository test `TestFormatNoteContent_PostProcessing`). -/
def tagsItems : List String → List Char
  | [] => []
  | t :: rest => ("    - ").data ++ (emitScalar t).data ++ '\n' :: tagsItems rest

/-- The rendered `tags` entry: the empty sequence renders in flow style
as `tags: []`, a non-empty one as a block sequence under the header. -/
def tagsChars (tags : List String) : List Char :=
  if tags.isEmpty then ("tags: []").data ++ ['\n']
  else ("tags:").data ++ '\n' :: tagsItems tags

/-- Model of `yaml.Marshal` on the `FrontMatter` struct: the three
fields in declaration order, one mapping entry per line, a trailing
newline (marshalling a struct of string fields cannot fail, so the model
is total). -/
def yamlMarshalFM (fm : FrontMatter) : String :=
  ⟨("title: ").data ++ (emitScalar fm.title).data ++ '\n' ::
   (("date: ").data ++ (emitScalar fm.date).data ++ '\n' ::
    tagsChars fm.tags)⟩

/-- Lines matched by the Go regular expression `(?m)^date:.*$`: those
beginning with the five characters `date:`. -/
def startsWithDateKey (line : List Char) : Bool :=
  line.take 5 = ("date:").data

/-- Model of `removeQuotesFromDateField`: replace every line that starts
with `date:` by `date: ` followed by the raw date value. -/
def removeQuotesFromDateField (yamlContent dateValue : String) : String :=
  ⟨joinWithChar '\n' ((splitOnCharC '\n' yamlContent.data).map (fun line =>
    if startsWithDateKey line then ("date: ").data ++ dateValue.data else line))⟩

/-- Model of `formatNoteContent`: wrap the post-processed front matter in
delimiters and append the content and a blank line
(`fmt.Sprintf("---\n%s---\n%s\n\n", yamlFrontMatter, note.Content)`). -/
def formatNoteContent (note : Note) : String :=
  ⟨("---").data ++ '\n' ::
   ((removeQuotesFromDateField (yamlMarshalFM ⟨note.title, note.date, note.tags⟩) note.date).data ++
    (("---").data ++ '\n' :: (note.content.data ++ ['\n', '\n'])))⟩

/-- Model of `validateNote`: missing title, then missing date, then the
strict `2006-01-02` parse. -/
def validateNote (note : Note) : Except NoteError Unit :=
  if note.title = "" then .error .missingTitle
  else if note.date = "" then .error .missingDate
  else
    match parseDate note.date with
    | none => .error (.invalidDate note.date)
    | some _ => .ok ()

/-- Validation loop of `ProcessNotes`: first failure wins. -/
def validateAll : List Note → Except NoteError Unit
  | [] => .ok ()
  | n :: rest =>
    match validateNote n with
    | .error e => .error e
    | .ok _ => validateAll rest

/-- Model of `buildMarkdownPath`: parse the note date, then
`filepath.Join(filepath.Join(baseDir, date.Format("2006/01")),
fmt.Sprintf("%02d.md", date.Day()))`. -/
def buildMarkdownPath (note : Note) (baseDir : String) : Except NoteError String :=
  match parseDate note.date with
  | none => .error (.invalidDate note.date)
  | some d =>
    let datePath := goJoin baseDir ⟨padN 4 d.year ++ '/' :: padN 2 d.month⟩
    .ok (goJoin datePath ⟨padN 2 d.day ++ (".md").data⟩)

/-- The Go skip condition: both the trimmed metadata and the trimmed
body of a pair are empty. -/
def skipPairB (p : List Char × List Char) : Bool :=
  (trimChars p.1).isEmpty && (trimChars p.2).isEmpty

/-- The positional (metadata, body) pairs of a buffer: split on `---`,
discard segment 0, pair the rest. -/
def noteSegPairs (data : String) : List (List Char × List Char) :=
  pairUp ((splitDashes data.data).drop 1)

/-- Loop body of `parseNotes` over the positional pairs: skip doubly
empty pairs, abort on the first decode error, otherwise build the note
with its trimmed content. -/
def parsePairs : List (List Char × List Char) → Except NoteError (List Note)
  | [] => .ok []
  | (m, c) :: rest =>
    if skipPairB (m, c) then parsePairs rest
    else
      match decodeFrontMatterChars m with
      | .error e => .error (.yamlError e)
      | .ok fm =>
        match parsePairs rest with
        | .error e => .error e
        | .ok ns => .ok (⟨fm.title, fm.date, fm.tags, ⟨trimChars c⟩⟩ :: ns)

/-- Model of `parseNotes`. -/
def parseNotes (data : String) : Except NoteError (List Note) :=
  parsePairs (noteSegPairs data)

/-- The file-system capability consumed by the orchestrator (the Go
`FileSystem` interface restricted to the two operations `ProcessNotes`
uses), as a state transformer over an abstract state `σ`; an error
result carries the Go error message. -/
structure FileSystem (σ : Type) where
  mkdirAll : σ → String → Except String σ
  appendToFile : σ → String → String → Except String σ

/-- One observable capability call issued by the orchestrator. -/
inductive FsCall
  | mkdirAll (path : String)
  | appendToFile (path : String) (data : String)
deriving DecidableEq

/-- Write phase of `ProcessNotes`: for each note in order, resolve the
path, `MkdirAll` its directory, serialize, `AppendToFile`; stop at the
first error. Returns the result, the final capability state and the
trace of issued calls (a failed call is still an issued call). -/
def writeNotes {σ : Type} (fs : FileSystem σ) (markdownDir : String) :
    List Note → σ → Except NoteError Unit × σ × List FsCall
  | [], s => (.ok (), s, [])
  | note :: rest, s =>
    match buildMarkdownPath note markdownDir with
    | .error e => (.error e, s, [])
    | .ok filePath =>
      match fs.mkdirAll s (goDir filePath) with
      | .error e => (.error (.fsError e), s, [.mkdirAll (goDir filePath)])
      | .ok s1 =>
        let fullNote := formatNoteContent note
        match fs.appendToFile s1 filePath fullNote with
        | .error e => (.error (.fsError e), s1, [.mkdirAll (goDir filePath), .appendToFile filePath fullNote])
        | .ok s2 =>
          match writeNotes fs markdownDir rest s2 with
          | (r, s3, calls) => (r, s3, .mkdirAll (goDir filePath) :: .appendToFile filePath fullNote :: calls)

/-- Model of `ProcessNotes`: parse, validate every note before any file
mutation, then write each note in buffer order. -/
def ProcessNotes {σ : Type} (data markdownDir : String) (fs : FileSystem σ) (s : σ) :
    Except NoteError Unit × σ × List FsCall :=
  match parseNotes data with
  | .error e => (.error e, s, [])
  | .ok notes =>
    match validateAll notes with
    | .error e => (.error e, s, [])
    | .ok _ => writeNotes fs markdownDir notes s

/-- State of the in-memory file system double (the repository test
`MockFileSystem`: a file map and a set of created directories). -/
structure MockState where
  files : List (String × String)
  dirs : List String
deriving DecidableEq

/-- Map lookup with the Go zero value for missing keys. -/
def mockGet : List (String × String) → String → String
  | [], _ => ""
  | (q, w) :: rest, p => if q = p then w else mockGet rest p

/-- Map update, inserting at the end when the key is new. -/
def mockSetFile : List (String × String) → String → String → List (String × String)
  | [], p, v => [(p, v)]
  | (q, w) :: rest, p, v =>
    if q = p then (q, v) :: rest else (q, w) :: mockSetFile rest p v

/-- The mock `AppendToFile`: `fs.Files[path] += data`. -/
def mockAppend (s : MockState) (p d : String) : MockState :=
  { s with files := mockSetFile s.files p (mockGet s.files p ++ d) }

/-- The mock `MkdirAll`: `fs.Dirs[path] = true`. -/
def mockMkdir (s : MockState) (p : String) : MockState :=
  { s with dirs := if s.dirs.contains p then s.dirs else s.dirs ++ [p] }

/-- The in-memory capability that never fails. -/
def mockFs : FileSystem MockState :=
  ⟨fun s p => .ok (mockMkdir s p), fun s p d => .ok (mockAppend s p d)⟩

/-- A second, definitionally separate copy of the in-memory capability
(used to state determinism across distinct capability values). -/
def mockFsCopy : FileSystem MockState :=
  ⟨fun s p => .ok (mockMkdir s p), fun s p d => .ok (mockAppend s p d)⟩

/-- Error message injected for a failed capability call. -/
def failMsg : FsCall → String
  | .mkdirAll _ => "mkdir failure"
  | .appendToFile _ _ => "append failure"

/-- An in-memory capability that fails exactly on the calls selected by
`bad` (used to model I/O errors partway through the write phase). -/
def failFs (bad : FsCall → Bool) : FileSystem MockState :=
  ⟨fun s p =>
     if bad (.mkdirAll p) then .error (failMsg (.mkdirAll p)) else .ok (mockMkdir s p),
   fun s p d =>
     if bad (.appendToFile p d) then .error (failMsg (.appendToFile p d)) else .ok (mockAppend s p d)⟩

/-- Effect of one call on the mock state. -/
def applyCall (s : MockState) : FsCall → MockState
  | .mkdirAll p => mockMkdir s p
  | .appendToFile p d => mockAppend s p d

/-- Replay a call list against the mock state. -/
def replayMock (calls : List FsCall) (s : MockState) : MockState :=
  calls.foldl applyCall s

/-- The full call sequence the write phase issues for a note list when
no capability call fails: directory creation then append, per note, in
buffer order. -/
def expectedCalls (markdownDir : String) : List Note → List FsCall
  | [] => []
  | note :: rest =>
    match buildMarkdownPath note markdownDir with
    | .error _ => []
    | .ok filePath =>
      .mkdirAll (goDir filePath) ::
      .appendToFile filePath (formatNoteContent note) :: expectedCalls markdownDir rest

/-- The append calls of a trace, in order. -/
def appendCallsOf : List FsCall → List FsCall
  | [] => []
  | .mkdirAll _ :: rest => appendCallsOf rest
  | .appendToFile p d :: rest => .appendToFile p d :: appendCallsOf rest

/-- Spec-side path form (§4.4 of the specification): for a validated
date, the archive path is exactly `base/YYYY/MM/DD.md` with zero-padded
components. -/
def archivePathSpec (base : String) (d : Date) : String :=
  base ++ "/" ++ padS 4 d.year ++ "/" ++ padS 2 d.month ++ "/" ++ padS 2 d.day ++ ".md"

/-! ### General lemmas about the pipeline loops -/

theorem validateAll_error_of_mem {ns : List Note} {n : Note} {e : NoteError}
    (hmem : n ∈ ns) (he : validateNote n = .error e) :
    ∃ e2, validateAll ns = .error e2 := by
  induction ns with
  | nil => cases hmem
  | cons m rest ih =>
    simp only [validateAll]
    cases hv : validateNote m with
    | error e3 => exact ⟨e3, rfl⟩
    | ok _ =>
      rcases List.mem_cons.mp hmem with h | h
      · subst h
        rw [hv] at he
        cases he
      · exact ih h

theorem parsePairs_count (ps : List (List Char × List Char)) (ns : List Note)
    (h : parsePairs ps = .ok ns) :
    ns.length = (ps.filter (fun p => !skipPairB p)).length := by
  induction ps generalizing ns with
  | nil =>
    simp only [parsePairs] at h
    cases h
    simp
  | cons p rest ih =>
    rcases p with ⟨m, c⟩
    simp only [parsePairs] at h
    by_cases hs : skipPairB (m, c)
    · rw [if_pos hs] at h
      simp [List.filter_cons, hs]
      exact ih ns h
    · rw [if_neg hs] at h
      cases hd : decodeFrontMatterChars m with
      | error e => rw [hd] at h; cases h
      | ok fm =>
        rw [hd] at h
        cases hr : parsePairs rest with
        | error e => rw [hr] at h; cases h
        | ok ns2 =>
          rw [hr] at h
          cases h
          simp [List.filter_cons, hs]
          exact ih ns2 hr

theorem parsePairs_error_at (pre : List (List Char × List Char)) (m c : List Char)
    (post : List (List Char × List Char)) (msg : String)
    (hpre : ∀ p ∈ pre, skipPairB p = true ∨ ∃ fmp, decodeFrontMatterChars p.1 = .ok fmp)
    (hskip : skipPairB (m, c) = false)
    (hdec : decodeFrontMatterChars m = .error msg) :
    parsePairs (pre ++ (m, c) :: post) = .error (.yamlError msg) := by
  induction pre with
  | nil =>
    simp only [List.nil_append, parsePairs]
    rw [if_neg (by simp [hskip]), hdec]
  | cons p pre2 ih =>
    rcases p with ⟨m2, c2⟩
    have ihr := ih (fun q hq => hpre q (List.mem_cons_of_mem _ hq))
    show parsePairs ((m2, c2) :: (pre2 ++ (m, c) :: post)) = _
    simp only [parsePairs]
    by_cases hs : skipPairB (m2, c2)
    · rw [if_pos hs]
      exact ihr
    · rw [if_neg hs]
      rcases hpre (m2, c2) (List.mem_cons_self _ _) with hsk | ⟨fmp, hfm⟩
      · exact absurd hsk hs
      · simp only [hfm, ihr]

/-! ### C1 — all-or-nothing validation -/

/-- C1: for every buffer, base directory and capability, if any decoded
note fails validation then `ProcessNotes` returns an error, issues no
`MkdirAll` and no `AppendToFile` call, and leaves the capability state
unchanged. -/
theorem c1_all_or_nothing {σ : Type} (fs : FileSystem σ) (s : σ)
    (data dir : String) (ns : List Note) (n : Note) (e : NoteError)
    (hp : parseNotes data = .ok ns) (hmem : n ∈ ns)
    (he : validateNote n = .error e) :
    ∃ e2, ProcessNotes data dir fs s = (.error e2, s, []) := by
  obtain ⟨e2, hva⟩ := validateAll_error_of_mem hmem he
  exact ⟨e2, by simp [ProcessNotes, hp, hva]⟩

/-- C1 witness: a concrete buffer whose only note has an invalid date. -/
theorem c1_all_or_nothing_witness :
    parseNotes ("---\ntitle: x\ndate: nope\n---\nbody") = .ok [⟨"x", "nope", [], "body"⟩] ∧
    validateNote ⟨"x", "nope", [], "body"⟩ = .error (.invalidDate "nope") ∧
    ∃ e2, ProcessNotes ("---\ntitle: x\ndate: nope\n---\nbody") "/a" mockFs ⟨[], []⟩ =
      (.error e2, (⟨[], []⟩ : MockState), []) :=
  ⟨by decide, by decide,
    c1_all_or_nothing mockFs ⟨[], []⟩ ("---\ntitle: x\ndate: nope\n---\nbody") "/a"
      [⟨"x", "nope", [], "body"⟩] ⟨"x", "nope", [], "body"⟩ (.invalidDate "nope")
      (by decide) (by decide) (by decide)⟩

/-! ### C3 — validator contract -/

/-- C3: validation succeeds exactly when the title is non-empty, the
date is non-empty and the date parses in the strict zero-padded
`YYYY-MM-DD` calendar format; otherwise the error is `missing title`,
`missing date`, or the invalid-date error, in that priority. -/
theorem c3_validator_contract (note : Note) :
    (validateNote note = .ok () ↔
      (note.title ≠ "" ∧ note.date ≠ "" ∧ (parseDate note.date).isSome = true)) ∧
    (note.title = "" → validateNote note = .error .missingTitle) ∧
    (note.title ≠ "" → note.date = "" → validateNote note = .error .missingDate) ∧
    (note.title ≠ "" → note.date ≠ "" → parseDate note.date = none →
      validateNote note = .error (.invalidDate note.date)) := by
  unfold validateNote
  by_cases h1 : note.title = "" <;> by_cases h2 : note.date = "" <;>
    cases h3 : parseDate note.date <;> simp [h1, h2, h3]

/-- C3 witness: concrete notes exercising all four validator outcomes. -/
theorem c3_validator_contract_witness :
    validateNote ⟨"", "2023-10-01", [], ""⟩ = .error .missingTitle ∧
    validateNote ⟨"T", "", [], ""⟩ = .error .missingDate ∧
    validateNote ⟨"T", "2023-13-01", [], ""⟩ = .error (.invalidDate "2023-13-01") ∧
    validateNote ⟨"T", "2023-10-01", [], ""⟩ = .ok () :=
  ⟨(c3_validator_contract ⟨"", "2023-10-01", [], ""⟩).2.1 rfl,
   (c3_validator_contract ⟨"T", "", [], ""⟩).2.2.1 (by decide) rfl,
   (c3_validator_contract ⟨"T", "2023-13-01", [], ""⟩).2.2.2 (by decide) (by decide) (by decide),
   (c3_validator_contract ⟨"T", "2023-10-01", [], ""⟩).1.mpr ⟨by decide, by decide, by decide⟩⟩

/-! ### C4 — splitter pair accounting -/

/-- C4: the number of notes produced from a buffer equals the number of
positional pairs whose trimmed metadata or trimmed body is non-empty
(doubly empty pairs are silently dropped), and the buffer `---` alone
produces no note, no capability call and no error. -/
theorem c4_pair_accounting :
    (∀ (data : String) (ns : List Note), parseNotes data = .ok ns →
      ns.length = ((noteSegPairs data).filter (fun p => !skipPairB p)).length) ∧
    (∀ (σ : Type) (fs : FileSystem σ) (s : σ) (dir : String),
      ProcessNotes ("---") dir fs s = (.ok (), s, [])) := by
  constructor
  · intro data ns h
    exact parsePairs_count _ _ h
  · intro σ fs s dir
    have hp : parseNotes ("---") = .ok [] := by decide
    simp [ProcessNotes, hp, validateAll, writeNotes]

/-- C4 witness: a buffer with one real note and one doubly empty pair. -/
theorem c4_pair_accounting_witness :
    parseNotes ("---\ntitle: T\ndate: 2024-09-12\n---\nBody\n--- \n") =
      .ok [⟨"T", "2024-09-12", [], "Body"⟩] ∧
    [(⟨"T", "2024-09-12", [], "Body"⟩ : Note)].length =
      ((noteSegPairs ("---\ntitle: T\ndate: 2024-09-12\n---\nBody\n--- \n")).filter
        (fun p => !skipPairB p)).length :=
  ⟨by decide,
   c4_pair_accounting.1 ("---\ntitle: T\ndate: 2024-09-12\n---\nBody\n--- \n") _ (by decide)⟩

/-! ### C5 — decode failure aborts the whole run -/

/-- C5: if every pair before some position decodes (or is skipped) and
the metadata at that position fails to decode, `ProcessNotes` returns
exactly that decode error, issues no capability call, and leaves the
capability state (hence every file, including the buffer) unchanged. -/
theorem c5_decode_aborts_run {σ : Type} (fs : FileSystem σ) (s : σ)
    (data dir : String) (pre : List (List Char × List Char)) (m c : List Char)
    (post : List (List Char × List Char)) (msg : String)
    (hsplit : noteSegPairs data = pre ++ (m, c) :: post)
    (hpre : ∀ p ∈ pre, skipPairB p = true ∨ ∃ fmp, decodeFrontMatterChars p.1 = .ok fmp)
    (hskip : skipPairB (m, c) = false)
    (hdec : decodeFrontMatterChars m = .error msg) :
    ProcessNotes data dir fs s = (.error (.yamlError msg), s, []) := by
  have hp : parseNotes data = .error (.yamlError msg) := by
    unfold parseNotes
    rw [hsplit]
    exact parsePairs_error_at pre m c post msg hpre hskip hdec
  simp [ProcessNotes, hp]

/-- C5 witness: a buffer whose single metadata segment is malformed. -/
theorem c5_decode_aborts_run_witness :
    decodeFrontMatterChars ("\ntitle: a: b\n").data =
      .error ("mapping values are not allowed in this context") ∧
    ProcessNotes ("---\ntitle: a: b\n---\nx") "/a" mockFs ⟨[], []⟩ =
      (.error (.yamlError ("mapping values are not allowed in this context")),
       (⟨[], []⟩ : MockState), []) :=
  ⟨by decide,
   c5_decode_aborts_run mockFs ⟨[], []⟩ _ "/a" [] ("\ntitle: a: b\n").data ("\nx").data [] _
     (by decide) (by simp) (by decide) (by decide)⟩

/-! ### C10 — determinism -/

/-- C10: `ProcessNotes` is deterministic — equal buffers, equal base
directories, equal starting states and pointwise identically responding
capabilities produce the same result, the same final state and the same
call trace. -/
theorem c10_deterministic {σ : Type} (fs1 fs2 : FileSystem σ) (s1 s2 : σ)
    (data dir : String) (hs : s1 = s2)
    (hm : ∀ t p, fs1.mkdirAll t p = fs2.mkdirAll t p)
    (ha : ∀ t p d, fs1.appendToFile t p d = fs2.appendToFile t p d) :
    ProcessNotes data dir fs1 s1 = ProcessNotes data dir fs2 s2 := by
  subst hs
  have hfs : fs1 = fs2 := by
    cases fs1
    cases fs2
    simp only [FileSystem.mk.injEq]
    exact ⟨funext fun t => funext fun p => hm t p,
           funext fun t => funext fun p => funext fun d => ha t p d⟩
  rw [hfs]

/-- C10 witness: two definitionally separate copies of the in-memory
capability run identically on a concrete buffer. -/
theorem c10_deterministic_witness :
    ProcessNotes ("---\ntitle: T\ndate: 2024-09-12\n---\nB") "/a" mockFs ⟨[], []⟩ =
    ProcessNotes ("---\ntitle: T\ndate: 2024-09-12\n---\nB") "/a" mockFsCopy ⟨[], []⟩ :=
  c10_deterministic mockFs mockFsCopy ⟨[], []⟩ ⟨[], []⟩ _ _ rfl
    (fun _ _ => rfl) (fun _ _ _ => rfl)

/-! ### Lemmas about character-level splitting and joining -/

theorem splitOnCharC_ne_nil (sep : Char) (l : List Char) :
    splitOnCharC sep l ≠ [] := by
  induction l with
  | nil => simp [splitOnCharC]
  | cons c rest ih =>
    by_cases hc : c = sep
    · simp [splitOnCharC, hc]
    · simp only [splitOnCharC, if_neg hc]
      cases h : splitOnCharC sep rest <;> simp

theorem splitOnCharC_append (sep : Char) (xs ys : List Char) :
    splitOnCharC sep (xs ++ sep :: ys) = splitOnCharC sep xs ++ splitOnCharC sep ys := by
  induction xs with
  | nil => simp [splitOnCharC]
  | cons c rest ih =>
    by_cases hc : c = sep
    · simp [splitOnCharC, hc, ih]
    · cases h : splitOnCharC sep rest with
      | nil => exact absurd h (splitOnCharC_ne_nil sep rest)
      | cons g gs =>
        simp only [List.cons_append, splitOnCharC, if_neg hc, List.append_eq]
        rw [ih, h]
        simp

theorem splitOnCharC_no_sep (sep : Char) (xs : List Char) (h : sep ∉ xs) :
    splitOnCharC sep xs = [xs] := by
  induction xs with
  | nil => rfl
  | cons c rest ih =>
    have hc : c ≠ sep := fun hh => h (hh ▸ List.mem_cons_self _ _)
    have hr : sep ∉ rest := fun hh => h (List.mem_cons_of_mem _ hh)
    simp only [splitOnCharC, if_neg hc, ih hr]

theorem join_splitOnCharC (sep : Char) (xs : List Char) :
    joinWithChar sep (splitOnCharC sep xs) = xs := by
  induction xs with
  | nil => rfl
  | cons c rest ih =>
    by_cases hc : c = sep
    · subst hc
      simp only [splitOnCharC, if_pos rfl]
      cases h : splitOnCharC c rest with
      | nil => exact absurd h (splitOnCharC_ne_nil c rest)
      | cons g gs =>
        rw [h] at ih
        simp only [joinWithChar, List.nil_append]
        rw [ih]
    · simp only [splitOnCharC, if_neg hc]
      cases h : splitOnCharC sep rest with
      | nil => exact absurd h (splitOnCharC_ne_nil sep rest)
      | cons g gs =>
        rw [h] at ih
        cases gs with
        | nil => simp only [joinWithChar] at ih ⊢; rw [ih]
        | cons g2 gs2 =>
          simp only [joinWithChar] at ih ⊢
          rw [List.cons_append, ih]

theorem mem_splitOnCharC_no_sep (sep : Char) (xs : List Char) :
    ∀ l ∈ splitOnCharC sep xs, sep ∉ l := by
  induction xs with
  | nil =>
    intro l hl
    simp [splitOnCharC] at hl
    simp [hl]
  | cons c rest ih =>
    intro l hl
    by_cases hc : c = sep
    · simp only [splitOnCharC, if_pos hc] at hl
      rcases List.mem_cons.mp hl with h | h
      · simp [h]
      · exact ih l h
    · simp only [splitOnCharC, if_neg hc] at hl
      cases h : splitOnCharC sep rest with
      | nil => exact absurd h (splitOnCharC_ne_nil sep rest)
      | cons g gs =>
        rw [h] at hl
        rcases List.mem_cons.mp hl with h2 | h2
        · subst h2
          intro hmem
          rcases List.mem_cons.mp hmem with h3 | h3
          · exact hc h3.symm
          · exact ih g (h ▸ List.mem_cons_self _ _) h3
        · exact ih l (h ▸ List.mem_cons_of_mem _ h2)

theorem splitOnCharC_join (sep : Char) (ls : List (List Char)) (hne : ls ≠ [])
    (hfree : ∀ l ∈ ls, sep ∉ l) :
    splitOnCharC sep (joinWithChar sep ls) = ls := by
  induction ls with
  | nil => exact absurd rfl hne
  | cons l rest ih =>
    cases rest with
    | nil =>
      simp only [joinWithChar]
      exact splitOnCharC_no_sep sep l (hfree l (List.mem_cons_self _ _))
    | cons l2 rest2 =>
      have hjoin : joinWithChar sep (l :: l2 :: rest2) = l ++ sep :: joinWithChar sep (l2 :: rest2) := rfl
      rw [hjoin, splitOnCharC_append,
        splitOnCharC_no_sep sep l (hfree l (List.mem_cons_self _ _)),
        ih (by simp) (fun q hq => hfree q (List.mem_cons_of_mem _ hq))]
      rfl

/-! ### C9 — the delimiter is not line-anchored -/

/-- C9 counterexample: in this buffer the character sequence `---`
occurs only in the interior of the first line (no line of the buffer
begins with `---`), yet that occurrence opens a metadata segment and the
splitter produces a note, where the claim requires none. -/
theorem c9_counterexample :
    ((splitOnCharC '\n' ("pre---\ntitle: T\ndate: 2024-09-12\n").data).all
      (fun l => l.take 3 ≠ ['-', '-', '-'])) = true ∧
    parseNotes ("pre---\ntitle: T\ndate: 2024-09-12\n") =
      .ok [⟨"T", "2024-09-12", [], ""⟩] ∧
    parseNotes ("pre---\ntitle: T\ndate: 2024-09-12\n") ≠ .ok [] := by
  refine ⟨by decide, by decide, by decide⟩

/-- C9 amended: the splitter cuts at every occurrence of `---`
(`strings.Split` semantics), whether or not it starts a line; an
interior-of-line delimiter opens a metadata segment exactly like a
line-anchored one. -/
theorem c9_amended_split_everywhere :
    parseNotes ("x---\ntitle: A\ndate: 2024-01-02\n---\nbody text") =
      .ok [⟨"A", "2024-01-02", [], "body text"⟩] ∧
    parseNotes ("ab---\ntitle: B\ndate: 2024-03-04\n---\nbb---\ntitle: C\ndate: 2024-03-05\n---\ncc") =
      .ok [⟨"B", "2024-03-04", [], "bb"⟩, ⟨"C", "2024-03-05", [], "cc"⟩] := by
  refine ⟨by decide, by decide⟩

/-! ### Lemmas about the serializer -/

theorem escDQ_no_newline (l : List Char) : '\n' ∉ escDQ l := by
  induction l with
  | nil => simp [escDQ]
  | cons c rest ih =>
    by_cases h1 : c = '\\' <;> by_cases h2 : c = '"' <;> by_cases h3 : c = '\n' <;>
      by_cases h4 : c = '\t' <;>
      simp_all [escDQ] <;>
      exact fun h => h3 h.symm

theorem plainBodyChar_no_newline {l : List Char} (h : l.all plainBodyChar = true) :
    '\n' ∉ l := by
  intro hmem
  have := List.all_eq_true.mp h _ hmem
  revert this
  decide

theorem emitScalar_no_newline (s : String) : '\n' ∉ (emitScalar s).data := by
  unfold emitScalar
  by_cases h : plainSafeChars s.data = true
  · rw [if_pos h]
    have hall : s.data.all plainBodyChar = true := by
      unfold plainSafeChars at h
      simp only [Bool.and_eq_true] at h
      exact h.1.1.1.1.1.1.1.1.1.2
    exact plainBodyChar_no_newline hall
  · rw [if_neg h]
    intro hmem
    rcases List.mem_cons.mp hmem with h2 | h2
    · cases h2
    · rcases List.mem_append.mp h2 with h3 | h3
      · exact escDQ_no_newline _ h3
      · simp at h3

theorem tagsItems_lines (ts : List String) :
    splitOnCharC '\n' (tagsItems ts) =
      ts.map (fun t => ("    - ").data ++ (emitScalar t).data) ++ [[]] := by
  induction ts with
  | nil => rfl
  | cons t rest ih =>
    have hfree : '\n' ∉ ("    - ").data ++ (emitScalar t).data := by
      intro h
      rcases List.mem_append.mp h with h | h
      · revert h; decide
      · exact emitScalar_no_newline t h
    rw [show tagsItems (t :: rest) =
          ((("    - ").data ++ (emitScalar t).data) ++ '\n' :: tagsItems rest) from by
        simp [tagsItems, List.append_assoc],
      splitOnCharC_append, splitOnCharC_no_sep _ _ hfree, ih]
    simp

/-! ### C2 — canonical serialized form -/

/-- C2 counterexample: processing the buffer of the claim appends a
block whose tag item is indented four spaces (as the repository test
`TestFormatNoteContent_PostProcessing` asserts of yaml.v3 output), not
the two spaces the claim specifies, so the produced file differs from
the claimed content. -/
theorem c2_counterexample :
    ProcessNotes ("---\ntitle: T\ndate: 2024-09-12\ntags:\n  - a\n---\nBody") "/archive"
        mockFs ⟨[], []⟩ =
      (.ok (),
       (⟨[("/archive/2024/09/12.md",
           "---\ntitle: T\ndate: 2024-09-12\ntags:\n    - a\n---\nBody\n\n")],
         ["/archive/2024/09"]⟩ : MockState),
       [.mkdirAll "/archive/2024/09",
        .appendToFile "/archive/2024/09/12.md"
          "---\ntitle: T\ndate: 2024-09-12\ntags:\n    - a\n---\nBody\n\n"]) ∧
    mockGet (ProcessNotes ("---\ntitle: T\ndate: 2024-09-12\ntags:\n  - a\n---\nBody")
        "/archive" mockFs ⟨[], []⟩).2.1.files "/archive/2024/09/12.md" ≠
      "---\ntitle: T\ndate: 2024-09-12\ntags:\n  - a\n---\nBody\n\n" := by
  refine ⟨by decide, by decide⟩

/-- C2 amended: the serializer renders tags as a four-space-indented
dash list, one per line, in original order; an empty tag list renders as
the flow form `tags: []` on the header line; and the buffer of the claim
produces the file `/archive/2024/09/12.md` whose content is exactly the
block with the four-space-indented tag item. -/
theorem c2_canonical_form :
    ProcessNotes ("---\ntitle: T\ndate: 2024-09-12\ntags:\n  - a\n---\nBody") "/archive"
        mockFs ⟨[], []⟩ =
      (.ok (),
       (⟨[("/archive/2024/09/12.md",
           "---\ntitle: T\ndate: 2024-09-12\ntags:\n    - a\n---\nBody\n\n")],
         ["/archive/2024/09"]⟩ : MockState),
       [.mkdirAll "/archive/2024/09",
        .appendToFile "/archive/2024/09/12.md"
          "---\ntitle: T\ndate: 2024-09-12\ntags:\n    - a\n---\nBody\n\n"]) ∧
    (∀ ts : List String, ts ≠ [] →
      splitOnCharC '\n' (tagsChars ts) =
        ("tags:").data :: (ts.map (fun t => ("    - ").data ++ (emitScalar t).data) ++ [[]])) ∧
    tagsChars [] = ("tags: []").data ++ ['\n'] := by
  refine ⟨by decide, ?_, rfl⟩
  intro ts hts
  rw [show tagsChars ts = (("tags:").data ++ '\n' :: tagsItems ts) from by
      simp [tagsChars, hts],
    splitOnCharC_append, splitOnCharC_no_sep _ _ (by decide), tagsItems_lines]
  rfl

/-- C2 witness: the general tag-rendering clause applied to a concrete
non-empty tag list. -/
theorem c2_canonical_form_witness :
    splitOnCharC '\n' (tagsChars ["work", "meeting"]) =
      ("tags:").data ::
        ((["work", "meeting"].map (fun t => ("    - ").data ++ (emitScalar t).data)) ++ [[]]) :=
  c2_canonical_form.2.1 ["work", "meeting"] (by decide)

/-! ### Lemmas about the path model -/

theorem elimDotDot_id (r : Bool) (cs : List (List Char)) (acc : List (List Char))
    (h : ∀ c ∈ cs, c ≠ ['.', '.']) :
    elimDotDot r acc cs = acc.reverse ++ cs := by
  induction cs generalizing acc with
  | nil => simp [elimDotDot]
  | cons c rest ih =>
    have hc : c ≠ ['.', '.'] := h c (List.mem_cons_self _ _)
    simp only [elimDotDot, if_neg hc]
    rw [ih (c :: acc) (fun q hq => h q (List.mem_cons_of_mem _ hq))]
    simp

theorem goodCompB_keep {c : List Char} (h : goodCompB c = true) : keepComp c = true := by
  unfold goodCompB at h
  unfold keepComp
  simp only [Bool.and_eq_true] at h ⊢
  exact ⟨h.1.1, h.1.2⟩

theorem goodCompB_ne_dotdot {c : List Char} (h : goodCompB c = true) : c ≠ ['.', '.'] := by
  unfold goodCompB at h
  simp only [Bool.and_eq_true] at h
  simpa using h.2

theorem filter_keepComp_of_good (cs : List (List Char)) (h : cs.all goodCompB = true) :
    cs.filter keepComp = cs := by
  induction cs with
  | nil => rfl
  | cons c rest ih =>
    simp only [List.all_cons, Bool.and_eq_true] at h
    simp [List.filter_cons, goodCompB_keep h.1, ih h.2]

theorem cleanChars_good_append (b r : List Char)
    (hb : goodBaseChars b = true)
    (hr : (splitOnCharC '/' r).all goodCompB = true) :
    cleanChars (b ++ '/' :: r) = b ++ '/' :: r := by
  cases b with
  | nil => simp [goodBaseChars, splitOnCharC] at hb
  | cons bc brest =>
    by_cases hbc : bc = '/'
    · subst hbc
      -- rooted path
      have hsb : splitOnCharC '/' ('/' :: brest) = [] :: splitOnCharC '/' brest := by
        simp [splitOnCharC]
      have hgood : (splitOnCharC '/' brest).all goodCompB = true := by
        unfold goodBaseChars at hb
        rw [hsb] at hb
        have hb2 : (!(splitOnCharC '/' brest).isEmpty &&
            (splitOnCharC '/' brest).all goodCompB) = true := hb
        simp only [Bool.and_eq_true] at hb2
        exact hb2.2
      have hqgood : (splitOnCharC '/' (brest ++ '/' :: r)).all goodCompB = true := by
        rw [splitOnCharC_append '/' brest r, List.all_append, hgood, hr]
        rfl
      have hsplit : splitOnCharC '/' ('/' :: (brest ++ '/' :: r)) =
          [] :: splitOnCharC '/' (brest ++ '/' :: r) := by
        simp [splitOnCharC]
      show cleanChars ('/' :: (brest ++ '/' :: r)) = '/' :: brest ++ '/' :: r
      unfold cleanChars
      rw [if_neg (show ¬('/' :: (brest ++ '/' :: r)).isEmpty = true by simp)]
      simp only [List.head?_cons, hsplit, List.filter_cons,
        show keepComp [] = false from rfl, if_true, Bool.false_eq_true, if_false]
      rw [filter_keepComp_of_good _ hqgood]
      rw [elimDotDot_id _ _ _
        (fun c hc => goodCompB_ne_dotdot (List.all_eq_true.mp hqgood c hc))]
      rw [List.reverse_nil, List.nil_append, join_splitOnCharC]
      simp
    · -- relative path: the first character is not a slash
      obtain ⟨g, gs, hbrest⟩ : ∃ g gs, splitOnCharC '/' brest = g :: gs := by
        cases h : splitOnCharC '/' brest with
        | nil => exact absurd h (splitOnCharC_ne_nil _ _)
        | cons g gs => exact ⟨g, gs, rfl⟩
      have hsb : splitOnCharC '/' (bc :: brest) = (bc :: g) :: gs := by
        simp only [splitOnCharC, if_neg hbc, hbrest]
      have hgoodb : (splitOnCharC '/' (bc :: brest)).all goodCompB = true := by
        unfold goodBaseChars at hb
        rw [hsb] at hb
        have hb2 : (if (bc :: g).isEmpty = true then !gs.isEmpty && gs.all goodCompB
            else ((bc :: g) :: gs).all goodCompB) = true := hb
        rw [if_neg (by simp)] at hb2
        rw [hsb]
        exact hb2
      have hgoodp : (splitOnCharC '/' ((bc :: brest) ++ '/' :: r)).all goodCompB = true := by
        rw [splitOnCharC_append '/' (bc :: brest) r, List.all_append, hgoodb, hr]
        rfl
      show cleanChars ((bc :: brest) ++ '/' :: r) = (bc :: brest) ++ '/' :: r
      unfold cleanChars
      rw [if_neg (show ¬((bc :: brest) ++ '/' :: r).isEmpty = true by simp)]
      rw [if_neg (show ¬((bc :: brest) ++ '/' :: r).head? = some '/' by
        simp only [List.cons_append, List.head?_cons]
        intro hcon
        exact hbc (by injection hcon))]
      rw [filter_keepComp_of_good _ hgoodp]
      rw [elimDotDot_id _ _ _
        (fun c hc => goodCompB_ne_dotdot (List.all_eq_true.mp hgoodp c hc))]
      rw [List.reverse_nil, List.nil_append, join_splitOnCharC]
      rw [if_neg (show ¬((bc :: brest) ++ '/' :: r).isEmpty = true by simp)]

theorem goodBaseChars_cons_slash (brest : List Char) :
    goodBaseChars ('/' :: brest) =
      (!(splitOnCharC '/' brest).isEmpty && (splitOnCharC '/' brest).all goodCompB) := by
  unfold goodBaseChars
  rw [show splitOnCharC '/' ('/' :: brest) = [] :: splitOnCharC '/' brest by
    simp [splitOnCharC]]
  rfl

theorem goodBaseChars_cons_ne (bc : Char) (brest g : List Char) (gs : List (List Char))
    (hbc : bc ≠ '/') (hbrest : splitOnCharC '/' brest = g :: gs) :
    goodBaseChars (bc :: brest) = ((bc :: g) :: gs).all goodCompB := by
  unfold goodBaseChars
  rw [show splitOnCharC '/' (bc :: brest) = (bc :: g) :: gs by
    simp only [splitOnCharC, if_neg hbc, hbrest]]
  rfl

theorem goodBaseChars_append (b r : List Char)
    (hb : goodBaseChars b = true)
    (hr : (splitOnCharC '/' r).all goodCompB = true) :
    goodBaseChars (b ++ '/' :: r) = true := by
  cases b with
  | nil => simp [goodBaseChars, splitOnCharC] at hb
  | cons bc brest =>
    by_cases hbc : bc = '/'
    · subst hbc
      rw [goodBaseChars_cons_slash] at hb
      simp only [Bool.and_eq_true] at hb
      rw [show ('/' :: brest) ++ '/' :: r = '/' :: (brest ++ '/' :: r) from rfl,
        goodBaseChars_cons_slash, splitOnCharC_append]
      simp only [Bool.and_eq_true, List.all_append]
      obtain ⟨g, gs, hg⟩ : ∃ g gs, splitOnCharC '/' brest = g :: gs := by
        cases h : splitOnCharC '/' brest with
        | nil => exact absurd h (splitOnCharC_ne_nil _ _)
        | cons g gs => exact ⟨g, gs, rfl⟩
      exact ⟨by simp [hg], hb.2, hr⟩
    · obtain ⟨g, gs, hbrest⟩ : ∃ g gs, splitOnCharC '/' brest = g :: gs := by
        cases h : splitOnCharC '/' brest with
        | nil => exact absurd h (splitOnCharC_ne_nil _ _)
        | cons g gs => exact ⟨g, gs, rfl⟩
      rw [goodBaseChars_cons_ne bc brest g gs hbc hbrest] at hb
      rw [show (bc :: brest) ++ '/' :: r = bc :: (brest ++ '/' :: r) from rfl,
        goodBaseChars_cons_ne bc _ g (gs ++ splitOnCharC '/' r) hbc
          (by rw [splitOnCharC_append, hbrest]; rfl)]
      simp only [List.all_cons, List.all_append, Bool.and_eq_true] at hb ⊢
      exact ⟨hb.1, hb.2, hr⟩

theorem strData_append (a b : String) : (a ++ b).data = a.data ++ b.data := by
  cases a
  cases b
  rfl

theorem strEq_of_data {a b : String} (h : a.data = b.data) : a = b := by
  cases a
  cases b
  exact congrArg String.mk h

theorem goJoin_good (base rel : String) (hb : goodBaseB base = true)
    (hne : rel.data ≠ []) (hrel : (splitOnCharC '/' rel.data).all goodCompB = true) :
    goJoin base rel = ⟨base.data ++ '/' :: rel.data⟩ := by
  have hbase : ¬base = "" := by
    intro h
    subst h
    simp [goodBaseB, goodBaseChars, splitOnCharC] at hb
  have hrelne : ¬rel = "" := by
    intro h
    subst h
    exact hne rfl
  unfold goJoin
  rw [if_neg hbase, if_neg hrelne]
  unfold goClean
  exact congrArg String.mk (cleanChars_good_append _ _ hb hrel)

/-! ### Lemmas about decimal digit rendering -/

theorem digitChar10_digit (k : Nat) (h : k < 10) : isDigitC (digitChar10 k) = true := by
  revert h
  revert k
  decide

theorem natDigsAux_digits (fuel : Nat) :
    ∀ (n : Nat) (acc : List Char), acc.all isDigitC = true →
      (natDigsAux fuel n acc).all isDigitC = true := by
  induction fuel with
  | zero => intro n acc h; exact h
  | succ f ih =>
    intro n acc h
    simp only [natDigsAux]
    have hd : isDigitC (digitChar10 (n % 10)) = true :=
      digitChar10_digit _ (Nat.mod_lt _ (by omega))
    by_cases hn : n < 10
    · rw [if_pos hn]
      simp [List.all_cons, hd, h]
    · rw [if_neg hn]
      exact ih _ _ (by simp [List.all_cons, hd, h])

theorem natDigs_digits (n : Nat) : (natDigs n).all isDigitC = true :=
  natDigsAux_digits _ _ _ rfl

theorem natDigsAux_ne_nil (fuel : Nat) :
    ∀ (n : Nat) (acc : List Char), acc ≠ [] → natDigsAux fuel n acc ≠ [] := by
  induction fuel with
  | zero => intro n acc h; exact h
  | succ f ih =>
    intro n acc h
    simp only [natDigsAux]
    by_cases hn : n < 10
    · rw [if_pos hn]
      simp
    · rw [if_neg hn]
      exact ih _ _ (by simp)

theorem natDigs_ne_nil (n : Nat) : natDigs n ≠ [] := by
  unfold natDigs
  simp only [natDigsAux]
  by_cases hn : n < 10
  · rw [if_pos hn]
    simp
  · rw [if_neg hn]
    exact natDigsAux_ne_nil _ _ _ (by simp)

theorem padN_digits (w n : Nat) : (padN w n).all isDigitC = true := by
  simp only [padN, List.all_append, Bool.and_eq_true]
  refine ⟨List.all_eq_true.mpr ?_, natDigs_digits n⟩
  intro c hc
  rw [List.eq_of_mem_replicate hc]
  decide

theorem padN_ne_nil (w n : Nat) : padN w n ≠ [] := by
  unfold padN
  intro h
  rcases List.append_eq_nil.mp h with ⟨-, h2⟩
  exact natDigs_ne_nil n h2

theorem all_digit_goodComp {l : List Char} (hl : l ≠ []) (h : l.all isDigitC = true) :
    goodCompB l = true := by
  unfold goodCompB
  simp only [Bool.and_eq_true, decide_eq_true_eq]
  refine ⟨⟨?_, ?_⟩, ?_⟩
  · cases l with
    | nil => exact absurd rfl hl
    | cons a as => rfl
  · intro heq
    subst heq
    exact absurd h (by decide)
  · intro heq
    subst heq
    exact absurd h (by decide)

theorem all_digit_no_slash {l : List Char} (h : l.all isDigitC = true) : '/' ∉ l := by
  intro hm
  have := List.all_eq_true.mp h _ hm
  revert this
  decide

/-! ### C6 — path resolution -/

/-- C6: for every note whose date parses as a validated `YYYY-MM-DD`
string and every canonically written base directory, the resolved
archive path is exactly `base/YYYY/MM/DD.md` with the zero-padded
calendar components of the note's own date; the resolver is a pure
function of the note and base directory. -/
theorem c6_path_resolution (note : Note) (base : String) (d : Date)
    (hbase : goodBaseB base = true) (hd : parseDate note.date = some d) :
    buildMarkdownPath note base = .ok (archivePathSpec base d) := by
  unfold buildMarkdownPath
  simp only [hd]
  have hymsplit : splitOnCharC '/' (padN 4 d.year ++ '/' :: padN 2 d.month) =
      [padN 4 d.year, padN 2 d.month] := by
    rw [splitOnCharC_append,
      splitOnCharC_no_sep _ _ (all_digit_no_slash (padN_digits 4 d.year)),
      splitOnCharC_no_sep _ _ (all_digit_no_slash (padN_digits 2 d.month))]
    rfl
  have hymgood : (splitOnCharC '/' (padN 4 d.year ++ '/' :: padN 2 d.month)).all
      goodCompB = true := by
    rw [hymsplit]
    simp only [List.all_cons, List.all_nil, Bool.and_eq_true]
    exact ⟨all_digit_goodComp (padN_ne_nil _ _) (padN_digits _ _),
      all_digit_goodComp (padN_ne_nil _ _) (padN_digits _ _), trivial⟩
  have hdd_no_slash : '/' ∉ padN 2 d.day ++ (".md").data := by
    intro hm
    rcases List.mem_append.mp hm with hm | hm
    · exact all_digit_no_slash (padN_digits 2 d.day) hm
    · revert hm
      decide
  have hddgood : (splitOnCharC '/' (padN 2 d.day ++ (".md").data)).all goodCompB = true := by
    rw [splitOnCharC_no_sep _ _ hdd_no_slash]
    simp only [List.all_cons, List.all_nil, Bool.and_eq_true]
    refine ⟨?_, trivial⟩
    unfold goodCompB
    simp only [Bool.and_eq_true, decide_eq_true_eq]
    refine ⟨⟨?_, ?_⟩, ?_⟩
    · cases hp : padN 2 d.day with
      | nil => exact absurd hp (padN_ne_nil _ _)
      | cons a as => simp [hp]
    · intro heq
      have := congrArg List.length heq
      simp [strData_append] at this
    · intro heq
      have := congrArg List.length heq
      simp [strData_append] at this
  have h1 : goJoin base ⟨padN 4 d.year ++ '/' :: padN 2 d.month⟩ =
      ⟨base.data ++ '/' :: (padN 4 d.year ++ '/' :: padN 2 d.month)⟩ :=
    goJoin_good base _ hbase (by simp [padN_ne_nil]) hymgood
  have h2 : goodBaseB (⟨base.data ++ '/' :: (padN 4 d.year ++ '/' :: padN 2 d.month)⟩ : String) = true :=
    goodBaseChars_append _ _ hbase hymgood
  have h3 : goJoin (⟨base.data ++ '/' :: (padN 4 d.year ++ '/' :: padN 2 d.month)⟩ : String)
      ⟨padN 2 d.day ++ (".md").data⟩ =
      ⟨(base.data ++ '/' :: (padN 4 d.year ++ '/' :: padN 2 d.month)) ++
        '/' :: (padN 2 d.day ++ (".md").data)⟩ :=
    goJoin_good _ _ h2 (by simp [padN_ne_nil]) hddgood
  rw [h1, h3]
  refine congrArg Except.ok (strEq_of_data ?_)
  show (base.data ++ '/' :: (padN 4 d.year ++ '/' :: padN 2 d.month)) ++
      '/' :: (padN 2 d.day ++ (".md").data) = _
  unfold archivePathSpec
  simp only [strData_append, padS]
  simp [List.append_assoc]

/-- C6 witness: the path for a concrete note and base directory. -/
theorem c6_path_resolution_witness :
    goodBaseB "/archive" = true ∧
    parseDate "2024-09-12" = some ⟨2024, 9, 12⟩ ∧
    buildMarkdownPath ⟨"T", "2024-09-12", [], "B"⟩ "/archive" =
      .ok (archivePathSpec "/archive" ⟨2024, 9, 12⟩) :=
  ⟨by decide, by decide,
   c6_path_resolution ⟨"T", "2024-09-12", [], "B"⟩ "/archive" ⟨2024, 9, 12⟩
     (by decide) (by decide)⟩

/-! ### Lemmas about the write phase -/

theorem buildMarkdownPath_ok_of_valid (note : Note) (dir : String)
    (h : validateNote note = .ok ()) :
    ∃ fp, buildMarkdownPath note dir = .ok fp := by
  unfold validateNote at h
  by_cases h1 : note.title = ""
  · rw [if_pos h1] at h
    cases h
  · rw [if_neg h1] at h
    by_cases h2 : note.date = ""
    · rw [if_pos h2] at h
      cases h
    · rw [if_neg h2] at h
      cases hd : parseDate note.date with
      | none => rw [hd] at h; cases h
      | some d =>
        unfold buildMarkdownPath
        rw [hd]
        exact ⟨_, rfl⟩

theorem validateAll_ok_mem : ∀ (ns : List Note), validateAll ns = .ok () →
    ∀ n ∈ ns, validateNote n = .ok () := by
  intro ns
  induction ns with
  | nil => intro h n hn; cases hn
  | cons m rest ih =>
    intro h n hn
    simp only [validateAll] at h
    cases hv : validateNote m with
    | error e => rw [hv] at h; cases h
    | ok u =>
      rw [hv] at h
      rcases List.mem_cons.mp hn with h2 | h2
      · subst h2
        cases u
        exact hv
      · exact ih h n h2

theorem appendCallsOf_mkdir (p : String) (l : List FsCall) :
    appendCallsOf (.mkdirAll p :: l) = appendCallsOf l := rfl

theorem appendCallsOf_append2 (p d : String) (l : List FsCall) :
    appendCallsOf (.appendToFile p d :: l) = .appendToFile p d :: appendCallsOf l := rfl

theorem writeNotes_appends_in_order {σ : Type} (fs : FileSystem σ) (dir : String) :
    ∀ (ns : List Note) (s : σ), ∃ tailCalls,
      appendCallsOf (expectedCalls dir ns) =
        appendCallsOf ((writeNotes fs dir ns s).2.2) ++ tailCalls := by
  intro ns
  induction ns with
  | nil => exact fun s => ⟨[], rfl⟩
  | cons note rest ih =>
    intro s
    cases hb : buildMarkdownPath note dir with
    | error e =>
      simp only [writeNotes, expectedCalls, hb]
      exact ⟨[], rfl⟩
    | ok fp =>
      simp only [writeNotes, expectedCalls, hb]
      cases hm : fs.mkdirAll s (goDir fp) with
      | error e =>
        simp only [hm]
        exact ⟨.appendToFile fp (formatNoteContent note) :: appendCallsOf (expectedCalls dir rest),
          by simp [appendCallsOf]⟩
      | ok s1 =>
        simp only [hm]
        cases ha : fs.appendToFile s1 fp (formatNoteContent note) with
        | error e =>
          simp only [ha]
          exact ⟨appendCallsOf (expectedCalls dir rest), by simp [appendCallsOf]⟩
        | ok s2 =>
          simp only [ha]
          obtain ⟨t2, ht2⟩ := ih s2
          refine ⟨t2, ?_⟩
          simp only [appendCallsOf_mkdir, appendCallsOf_append2, ht2]
          simp

theorem writeNotes_failFs (dir : String) :
    ∀ (ns : List Note) (bad : FsCall → Bool) (s0 : MockState),
      (∀ n ∈ ns, validateNote n = .ok ()) →
      (∀ good badc after, expectedCalls dir ns = good ++ badc :: after →
        (∀ c ∈ good, bad c = false) → bad badc = true →
        writeNotes (failFs bad) dir ns s0 =
          (.error (.fsError (failMsg badc)), replayMock good s0, good ++ [badc])) ∧
      ((∀ c ∈ expectedCalls dir ns, bad c = false) →
        writeNotes (failFs bad) dir ns s0 =
          (.ok (), replayMock (expectedCalls dir ns) s0, expectedCalls dir ns)) := by
  intro ns
  induction ns with
  | nil =>
    intro bad s0 hval
    constructor
    · intro good badc after heq
      rw [show expectedCalls dir [] = [] from rfl] at heq
      cases good <;> simp at heq
    · intro hall
      rfl
  | cons note rest ih =>
    intro bad s0 hval
    obtain ⟨fp, hb⟩ := buildMarkdownPath_ok_of_valid note dir
      (hval note (List.mem_cons_self _ _))
    have hvalrest : ∀ n ∈ rest, validateNote n = .ok () :=
      fun n hn => hval n (List.mem_cons_of_mem _ hn)
    have hexp : expectedCalls dir (note :: rest) =
        .mkdirAll (goDir fp) :: .appendToFile fp (formatNoteContent note) ::
          expectedCalls dir rest := by
      simp only [expectedCalls, hb]
    constructor
    · intro good badc after heq hgood hbadc
      rw [hexp] at heq
      simp only [writeNotes, hb]
      by_cases hbad1 : bad (.mkdirAll (goDir fp)) = true
      · have hmk : (failFs bad).mkdirAll s0 (goDir fp) =
            .error (failMsg (.mkdirAll (goDir fp))) := by
          unfold failFs
          simp [hbad1]
        cases good with
        | nil =>
          simp only [List.nil_append] at heq
          injection heq with h1 h2
          subst h1
          simp only [hmk]
          rfl
        | cons g good2 =>
          simp only [List.cons_append] at heq
          injection heq with h1 h2
          subst h1
          exact absurd hbad1 (by simp [hgood _ (List.mem_cons_self _ _)])
      · have hmk : (failFs bad).mkdirAll s0 (goDir fp) =
            .ok (mockMkdir s0 (goDir fp)) := by
          unfold failFs
          simp [hbad1]
        simp only [hmk]
        by_cases hbad2 : bad (.appendToFile fp (formatNoteContent note)) = true
        · have hap : (failFs bad).appendToFile (mockMkdir s0 (goDir fp)) fp
              (formatNoteContent note) =
              .error (failMsg (.appendToFile fp (formatNoteContent note))) := by
            unfold failFs
            simp [hbad2]
          cases good with
          | nil =>
            simp only [List.nil_append] at heq
            injection heq with h1 h2
            subst h1
            exact absurd hbadc (by simp [hbad1])
          | cons g good2 =>
            simp only [List.cons_append] at heq
            injection heq with h1 h2
            subst h1
            cases good2 with
            | nil =>
              simp only [List.nil_append] at h2
              injection h2 with h3 h4
              subst h3
              simp only [hap]
              rfl
            | cons g2 good3 =>
              simp only [List.cons_append] at h2
              injection h2 with h3 h4
              subst h3
              exact absurd hbad2
                (by simp [hgood _ (List.mem_cons_of_mem _ (List.mem_cons_self _ _))])
        · have hap : (failFs bad).appendToFile (mockMkdir s0 (goDir fp)) fp
              (formatNoteContent note) =
              .ok (mockAppend (mockMkdir s0 (goDir fp)) fp (formatNoteContent note)) := by
            unfold failFs
            simp [hbad2]
          simp only [hap]
          cases good with
          | nil =>
            simp only [List.nil_append] at heq
            injection heq with h1 h2
            subst h1
            exact absurd hbadc (by simp [hbad1])
          | cons g good2 =>
            simp only [List.cons_append] at heq
            injection heq with h1 h2
            subst h1
            cases good2 with
            | nil =>
              simp only [List.nil_append] at h2
              injection h2 with h3 h4
              subst h3
              exact absurd hbadc (by simp [hbad2])
            | cons g2 good3 =>
              simp only [List.cons_append] at h2
              injection h2 with h3 h4
              subst h3
              have ihr := (ih bad
                (mockAppend (mockMkdir s0 (goDir fp)) fp (formatNoteContent note))
                hvalrest).1 good3 badc after h4
                (fun c hc => hgood c
                  (List.mem_cons_of_mem _ (List.mem_cons_of_mem _ hc)))
                hbadc
              rw [ihr]
              rfl
    · intro hall
      rw [hexp] at hall
      have hbad1 : bad (.mkdirAll (goDir fp)) = false :=
        hall _ (List.mem_cons_self _ _)
      have hbad2 : bad (.appendToFile fp (formatNoteContent note)) = false :=
        hall _ (List.mem_cons_of_mem _ (List.mem_cons_self _ _))
      have hallrest : ∀ c ∈ expectedCalls dir rest, bad c = false :=
        fun c hc => hall c (List.mem_cons_of_mem _ (List.mem_cons_of_mem _ hc))
      simp only [writeNotes, hb]
      have hmk : (failFs bad).mkdirAll s0 (goDir fp) =
          .ok (mockMkdir s0 (goDir fp)) := by
        unfold failFs
        simp [hbad1]
      have hap : (failFs bad).appendToFile (mockMkdir s0 (goDir fp)) fp
          (formatNoteContent note) =
          .ok (mockAppend (mockMkdir s0 (goDir fp)) fp (formatNoteContent note)) := by
        unfold failFs
        simp [hbad2]
      simp only [hmk, hap]
      have ihr := (ih bad
        (mockAppend (mockMkdir s0 (goDir fp)) fp (formatNoteContent note)) hvalrest).2 hallrest
      rw [ihr, hexp]
      rfl

/-! ### C8 — write order, first I/O error, no rollback -/

/-- C8: for every buffer that parses, (1) with any capability the append
calls `ProcessNotes` issues are, in order, a prefix of the per-note
appends in buffer-appearance order (notes are never reordered or
date-sorted); and (2) once validation passes, with a capability that
fails exactly on a chosen call, `ProcessNotes` stops at the first
failing call, returns that I/O error, and the final state is exactly the
replay of the successful earlier calls — notes appended earlier in the
run are kept, not rolled back; with no failing call every expected call
runs and the run succeeds. -/
theorem c8_write_order_no_rollback (data dir : String) (ns : List Note)
    (hp : parseNotes data = .ok ns) :
    (∀ (σ : Type) (fs : FileSystem σ) (s : σ), ∃ tailCalls,
      appendCallsOf (expectedCalls dir ns) =
        appendCallsOf ((ProcessNotes data dir fs s).2.2) ++ tailCalls) ∧
    (validateAll ns = .ok () →
      ∀ (bad : FsCall → Bool) (s0 : MockState),
        (∀ good badc after, expectedCalls dir ns = good ++ badc :: after →
          (∀ c ∈ good, bad c = false) → bad badc = true →
          ProcessNotes data dir (failFs bad) s0 =
            (.error (.fsError (failMsg badc)), replayMock good s0, good ++ [badc])) ∧
        ((∀ c ∈ expectedCalls dir ns, bad c = false) →
          ProcessNotes data dir (failFs bad) s0 =
            (.ok (), replayMock (expectedCalls dir ns) s0, expectedCalls dir ns))) := by
  constructor
  · intro σ fs s
    cases hv : validateAll ns with
    | error e =>
      refine ⟨appendCallsOf (expectedCalls dir ns), ?_⟩
      simp only [ProcessNotes, hp, hv]
      rfl
    | ok u =>
      cases u
      have := writeNotes_appends_in_order fs dir ns s
      simpa only [ProcessNotes, hp, hv] using this
  · intro hv bad s0
    have hval := validateAll_ok_mem ns hv
    constructor
    · intro good badc after heq hgood hbadc
      have := (writeNotes_failFs dir ns bad s0 hval).1 good badc after heq hgood hbadc
      simpa only [ProcessNotes, hp, hv] using this
    · intro hall
      have := (writeNotes_failFs dir ns bad s0 hval).2 hall
      simpa only [ProcessNotes, hp, hv] using this

/-- C8 witness: a two-note buffer with a capability that fails exactly
on the second append; the first note stays on disk, the error is the
second append failure, and the trace ends at the failing call. -/
theorem c8_write_order_no_rollback_witness :
    ProcessNotes ("---\ntitle: A\ndate: 2024-01-02\n---\naaa\n---\ntitle: B\ndate: 2024-01-03\n---\nbbb")
        "/n"
        (failFs (fun c => c = .appendToFile "/n/2024/01/03.md"
          "---\ntitle: B\ndate: 2024-01-03\ntags: []\n---\nbbb\n\n"))
        ⟨[], []⟩ =
      (.error (.fsError ("append failure")),
       replayMock
         [.mkdirAll "/n/2024/01",
          .appendToFile "/n/2024/01/02.md" "---\ntitle: A\ndate: 2024-01-02\ntags: []\n---\naaa\n\n",
          .mkdirAll "/n/2024/01"] ⟨[], []⟩,
       [.mkdirAll "/n/2024/01",
        .appendToFile "/n/2024/01/02.md" "---\ntitle: A\ndate: 2024-01-02\ntags: []\n---\naaa\n\n",
        .mkdirAll "/n/2024/01"] ++
         [.appendToFile "/n/2024/01/03.md" "---\ntitle: B\ndate: 2024-01-03\ntags: []\n---\nbbb\n\n"]) :=
  ((c8_write_order_no_rollback
      ("---\ntitle: A\ndate: 2024-01-02\n---\naaa\n---\ntitle: B\ndate: 2024-01-03\n---\nbbb") "/n"
      [⟨"A", "2024-01-02", [], "aaa"⟩, ⟨"B", "2024-01-03", [], "bbb"⟩]
      (by decide)).2 (by decide)
      (fun c => c = .appendToFile "/n/2024/01/03.md"
        "---\ntitle: B\ndate: 2024-01-03\ntags: []\n---\nbbb\n\n")
      ⟨[], []⟩).1
    [.mkdirAll "/n/2024/01",
     .appendToFile "/n/2024/01/02.md" "---\ntitle: A\ndate: 2024-01-02\ntags: []\n---\naaa\n\n",
     .mkdirAll "/n/2024/01"]
    (.appendToFile "/n/2024/01/03.md" "---\ntitle: B\ndate: 2024-01-03\ntags: []\n---\nbbb\n\n")
    [] (by decide) (by decide) (by decide)

/-! ### Lemmas about the scalar decoder -/

theorem dropWhile_eq_self_of_head {p : Char → Bool} {l : List Char}
    (h : ∀ c, l.head? = some c → p c = false) : l.dropWhile p = l := by
  cases l with
  | nil => rfl
  | cons c rest =>
    rw [List.dropWhile_cons, if_neg]
    rw [h c rfl]
    simp

theorem trimRightChars_eq_self {l : List Char}
    (h : ∀ c, l.getLast? = some c → isSpaceChar c = false) : trimRightChars l = l := by
  unfold trimRightChars
  rw [dropWhile_eq_self_of_head, List.reverse_reverse]
  intro c hc
  rw [List.head?_reverse] at hc
  exact h c hc

theorem trimChars_eq_trimRight_drop (l : List Char) :
    trimChars l = trimRightChars (l.dropWhile isSpaceChar) := rfl

theorem trimChars_eq_self {l : List Char}
    (h1 : ∀ c, l.head? = some c → isSpaceChar c = false)
    (h2 : ∀ c, l.getLast? = some c → isSpaceChar c = false) : trimChars l = l := by
  rw [trimChars_eq_trimRight_drop, dropWhile_eq_self_of_head h1,
    trimRightChars_eq_self h2]

theorem stripCommentAux_eq_self {l : List Char} (h : '#' ∉ l) :
    stripCommentAux l = l := by
  induction l with
  | nil => rfl
  | cons c rest ih =>
    have hr : '#' ∉ rest := fun hm => h (List.mem_cons_of_mem _ hm)
    simp only [stripCommentAux]
    rw [if_neg, ih hr]
    rintro ⟨-, h2⟩
    cases rest with
    | nil => cases h2
    | cons c2 rest2 =>
      simp only [List.head?_cons, Option.some.injEq] at h2
      exact h (List.mem_cons_of_mem _ (h2 ▸ List.mem_cons_self _ _))

theorem stripComment_eq_self {l : List Char} (hhead : l.head? ≠ some '#')
    (h : '#' ∉ l) : stripComment l = l := by
  unfold stripComment
  rw [if_neg hhead, stripCommentAux_eq_self h]

theorem hasMapColon_false {l : List Char} (h : ':' ∉ l) : hasMapColon l = false := by
  induction l with
  | nil => rfl
  | cons c rest ih =>
    have hc : c ≠ ':' := fun hh => h (hh ▸ List.mem_cons_self _ _)
    simp only [hasMapColon]
    rw [if_neg (by rintro ⟨h1, -⟩; exact hc h1)]
    exact ih (fun hm => h (List.mem_cons_of_mem _ hm))

theorem parseValue_space (v : List Char) : parseValue (' ' :: v) = parseValue v := by
  unfold parseValue
  rw [show (' ' :: v).dropWhile (fun c => c = ' ') = v.dropWhile (fun c => c = ' ') from by
    rw [List.dropWhile_cons, if_pos (by simp)]]

theorem parseValue_plain_generic (l : List Char)
    (hne : l ≠ [])
    (hsp : l.head? ≠ some ' ') (hhash : l.head? ≠ some '#')
    (hq : l.head? ≠ some '"') (hbr : l.head? ≠ some '[') (hbc : l.head? ≠ some '{')
    (hnohash : '#' ∉ l) (hnocolon : ':' ∉ l)
    (hlast : ∀ c, l.getLast? = some c → isSpaceChar c = false)
    (hnull : nullLike l = false) (hbool : boolLike l = false)
    (hint : intLike l = false) (hfloat : floatLike l = false) :
    parseValue l = .ok (.vstr l) := by
  have hdrop : l.dropWhile (fun c => c = ' ') = l := by
    apply dropWhile_eq_self_of_head
    intro c hc
    rw [hc] at hsp
    simp only [ne_eq, Option.some.injEq] at hsp
    simp [hsp]
  unfold parseValue
  rw [hdrop]
  rw [if_neg (by simp [hne])]
  rw [if_neg hhash, if_neg hq, if_neg hbr, if_neg hbc]
  rw [stripComment_eq_self hhash hnohash, trimRightChars_eq_self hlast]
  simp only [hasMapColon_false hnocolon, hnull, hbool, hint, hfloat,
    Bool.false_eq_true, if_false]

theorem spaceChar_cases {c : Char} (h : isSpaceChar c = true) :
    c = ' ' ∨ c = '\t' ∨ c = '\n' ∨ c = '\x0d' ∨ c = '\x0b' ∨ c = '\x0c' := by
  unfold isSpaceChar at h
  simp only [Bool.or_eq_true, decide_eq_true_eq] at h
  tauto

theorem plainBodyChar_not_space {c : Char} (h : plainBodyChar c = true)
    (hc : c ≠ ' ') : isSpaceChar c = false := by
  cases hsc : isSpaceChar c with
  | false => rfl
  | true =>
    rcases spaceChar_cases hsc with h1 | h1 | h1 | h1 | h1 | h1
    · exact absurd h1 hc
    all_goals subst h1
    all_goals exact absurd h (by decide)

theorem plainSafe_facts {l : List Char} (h : plainSafeChars l = true) :
    l ≠ [] ∧ l.head? ≠ some ' ' ∧
    (∀ c, l.getLast? = some c → isSpaceChar c = false) ∧
    ':' ∉ l ∧ '\n' ∉ l ∧ '#' ∉ l := by
  unfold plainSafeChars at h
  simp only [Bool.and_eq_true, Bool.not_eq_true', decide_eq_true_eq,
    List.isEmpty_eq_false, ne_eq] at h
  obtain ⟨⟨⟨⟨⟨⟨⟨⟨⟨⟨hne, hall⟩, hsp⟩, hdash⟩, hdot⟩, hlast⟩, hnull⟩, hbool⟩, hint⟩, hfloat⟩,
    hdate⟩ := h
  have hmemchar : ∀ c ∈ l, plainBodyChar c = true := List.all_eq_true.mp hall
  refine ⟨hne, by simpa using hsp, ?_, ?_, ?_, ?_⟩
  · intro c hc
    have hm := List.mem_of_getLast?_eq_some hc
    refine plainBodyChar_not_space (hmemchar c hm) ?_
    intro heq
    subst heq
    exact hlast hc
  · intro hm
    exact absurd (hmemchar _ hm) (by decide)
  · intro hm
    exact absurd (hmemchar _ hm) (by decide)
  · intro hm
    exact absurd (hmemchar _ hm) (by decide)

theorem plainSafe_head_facts {l : List Char} (h : plainSafeChars l = true) :
    l.head? ≠ some '#' ∧ l.head? ≠ some '"' ∧ l.head? ≠ some '[' ∧ l.head? ≠ some '{' := by
  unfold plainSafeChars at h
  simp only [Bool.and_eq_true] at h
  have hall := h.1.1.1.1.1.1.1.1.1.2
  have hmemchar : ∀ c ∈ l, plainBodyChar c = true := List.all_eq_true.mp hall
  cases l with
  | nil => simp
  | cons c rest =>
    have hc := hmemchar c (List.mem_cons_self _ _)
    simp only [List.head?_cons, ne_eq, Option.some.injEq]
    refine ⟨?_, ?_, ?_, ?_⟩
    all_goals intro heq
    all_goals subst heq
    all_goals exact absurd hc (by decide)

theorem parseValue_plain {l : List Char} (h : plainSafeChars l = true) :
    parseValue l = .ok (.vstr l) := by
  obtain ⟨hne, hsp, hlast, hcolon, hnl, hhash⟩ := plainSafe_facts h
  obtain ⟨hh1, hh2, hh3, hh4⟩ := plainSafe_head_facts h
  unfold plainSafeChars at h
  simp only [Bool.and_eq_true, Bool.not_eq_true'] at h
  exact parseValue_plain_generic l hne hsp hh1 hh2 hh3 hh4 hhash hcolon hlast
    h.1.1.1.1.2 h.1.1.1.2 h.1.1.2 h.1.2

theorem digit_ne {c x : Char} (h : isDigitC c = true) (hx : isDigitC x = false) :
    c ≠ x := by
  intro heq
  rw [heq, hx] at h
  cases h

theorem digit_not_space {c : Char} (h : isDigitC c = true) : isSpaceChar c = false := by
  cases hsc : isSpaceChar c with
  | false => rfl
  | true =>
    rcases spaceChar_cases hsc with h1 | h1 | h1 | h1 | h1 | h1
    all_goals subst h1
    all_goals exact absurd h (by decide)

theorem parseDate_shape {s : String} {d : Date} (h : parseDate s = some d) :
    ∃ y1 y2 y3 y4 m1 m2 d1 d2,
      s.data = [y1, y2, y3, y4, '-', m1, m2, '-', d1, d2] ∧
      isDigitC y1 = true ∧ isDigitC y2 = true ∧ isDigitC y3 = true ∧ isDigitC y4 = true ∧
      isDigitC m1 = true ∧ isDigitC m2 = true ∧ isDigitC d1 = true ∧ isDigitC d2 = true := by
  unfold parseDate at h
  split at h
  next y1 y2 y3 y4 h1 m1 m2 h2 d1 d2 heq =>
    split at h
    next hcond =>
      simp only [Bool.and_eq_true, decide_eq_true_eq] at hcond
      obtain ⟨⟨⟨⟨⟨⟨⟨⟨⟨hy1, hy2⟩, hy3⟩, hy4⟩, hh1⟩, hm1⟩, hm2⟩, hh2⟩, hd1⟩, hd2⟩ := hcond
      subst hh1
      subst hh2
      exact ⟨y1, y2, y3, y4, m1, m2, d1, d2, heq, hy1, hy2, hy3, hy4, hm1, hm2, hd1, hd2⟩
    next => cases h
  next => cases h

theorem dateChars_facts {s : String} {d : Date} (h : parseDate s = some d) :
    parseValue s.data = .ok (.vstr s.data) ∧ '\n' ∉ s.data ∧ s.data ≠ [] ∧
    s.data.head? ≠ some ' ' ∧
    (∀ c, s.data.getLast? = some c → isSpaceChar c = false) := by
  obtain ⟨y1, y2, y3, y4, m1, m2, d1, d2, heq, hy1, hy2, hy3, hy4, hm1, hm2, hd1, hd2⟩ :=
    parseDate_shape h
  rw [heq]
  have hmem : ∀ c ∈ ([y1, y2, y3, y4, '-', m1, m2, '-', d1, d2] : List Char),
      isDigitC c = true ∨ c = '-' := by
    intro c hc
    simp only [List.mem_cons, List.not_mem_nil, or_false] at hc
    rcases hc with rfl | rfl | rfl | rfl | rfl | rfl | rfl | rfl | rfl | rfl
    exacts [Or.inl hy1, Or.inl hy2, Or.inl hy3, Or.inl hy4, Or.inr rfl, Or.inl hm1,
      Or.inl hm2, Or.inr rfl, Or.inl hd1, Or.inl hd2]
  have hnmem : ∀ x : Char, isDigitC x = false → x ≠ '-' →
      x ∉ ([y1, y2, y3, y4, '-', m1, m2, '-', d1, d2] : List Char) := by
    intro x hx hxd hm
    rcases hmem x hm with hd | hd
    · rw [hx] at hd
      cases hd
    · exact hxd hd
  have hlast : ∀ c,
      ([y1, y2, y3, y4, '-', m1, m2, '-', d1, d2] : List Char).getLast? = some c →
        isSpaceChar c = false := by
    intro c hc
    have : some d2 = some c := by
      rw [← hc]
      rfl
    injection this with h2
    subst h2
    exact digit_not_space hd2
  refine ⟨?_, hnmem '\n' (by decide) (by decide), by simp, ?_, hlast⟩
  · apply parseValue_plain_generic
    · simp
    · simp only [List.head?_cons, ne_eq, Option.some.injEq]
      exact digit_ne hy1 (by decide)
    · simp only [List.head?_cons, ne_eq, Option.some.injEq]
      exact digit_ne hy1 (by decide)
    · simp only [List.head?_cons, ne_eq, Option.some.injEq]
      exact digit_ne hy1 (by decide)
    · simp only [List.head?_cons, ne_eq, Option.some.injEq]
      exact digit_ne hy1 (by decide)
    · simp only [List.head?_cons, ne_eq, Option.some.injEq]
      exact digit_ne hy1 (by decide)
    · exact hnmem '#' (by decide) (by decide)
    · exact hnmem ':' (by decide) (by decide)
    · exact hlast
    · simp [nullLike]
    · simp [boolLike]
    · unfold intLike
      rw [if_neg (by simp), if_neg]
      · refine List.all_eq_false.mpr ⟨'-', by simp, by decide⟩
      · simp only [List.head?_cons, Option.some.injEq]
        rintro (h1 | h1)
        · exact digit_ne hy1 (by decide) h1
        · exact digit_ne hy1 (by decide) h1
    · unfold floatLike
      rw [if_neg]
      · unfold floatLikeCore
        have hdot : ('.' : Char) ∉ ([y1, y2, y3, y4, '-', m1, m2, '-', d1, d2] : List Char) :=
          hnmem '.' (by decide) (by decide)
        rw [show List.count '.' ([y1, y2, y3, y4, '-', m1, m2, '-', d1, d2] : List Char) = 0 from
          List.count_eq_zero.mpr hdot]
        simp
      · simp only [List.head?_cons, Option.some.injEq]
        rintro (h1 | h1)
        · exact digit_ne hy1 (by decide) h1
        · exact digit_ne hy1 (by decide) h1
  · simp only [List.head?_cons, ne_eq, Option.some.injEq]
    exact digit_ne hy1 (by decide)

/-! ### Line-level lemmas about the front-matter decoder -/

theorem decLinesAux_cons (line : List Char) (rest : List (List Char)) (acc : DecFM)
    (mode : Option SeqTarget) :
    decLinesAux (line :: rest) acc mode =
      match decLine line acc mode with
      | .error e => .error e
      | .ok (acc2, mode2) => decLinesAux rest acc2 mode2 := rfl

theorem trimChars_key_value (pre : List Char) (v : List Char)
    (hpre : ∀ c, (pre ++ v).head? = some c → isSpaceChar c = false)
    (hvne : v ≠ [])
    (hvlast : ∀ c, v.getLast? = some c → isSpaceChar c = false) :
    trimChars (pre ++ v) = pre ++ v := by
  apply trimChars_eq_self hpre
  intro c hc
  rw [List.getLast?_append] at hc
  cases hl : v.getLast? with
  | none =>
    rw [List.getLast?_eq_none_iff] at hl
    exact absurd hl hvne
  | some c2 =>
    rw [hl] at hc
    have h2 : some c2 = some c := hc
    injection h2 with h3
    exact h3 ▸ hvlast c2 hl

theorem decLine_title (v : List Char) (acc : DecFM) (mode : Option SeqTarget)
    (hv : parseValue v = .ok (.vstr v)) (hvne : v ≠ []) (hvhead : v.head? ≠ some ' ')
    (hvlast : ∀ c, v.getLast? = some c → isSpaceChar c = false) :
    decLine (("title: ").data ++ v) acc mode = .ok ({ acc with title := v }, none) := by
  have hhd : ((("title: ").data ++ v)).head? = some 't' := rfl
  have htrim : trimChars (("title: ").data ++ v) = ("title: ").data ++ v := by
    apply trimChars_key_value
    · intro c hc
      have h3 := hhd.symm.trans hc
      injection h3 with h4
      subst h4
      decide
    · exact hvne
    · exact hvlast
  have hseq : seqItemContent (("title: ").data ++ v) = none := by
    unfold seqItemContent
    rw [if_neg]
    intro hcon
    have h3 := hhd.symm.trans hcon
    injection h3 with h4
    exact absurd h4 (by decide)
  have hbreak : breakColon (("title: ").data ++ v) = some (("title").data, ' ' :: v) := rfl
  cases mode <;>
    (unfold decLine
     simp only [htrim]
     rw [if_neg (by simp)]
     rw [if_neg (by rw [hhd]; simp)]
     first
       | simp only [hseq]
       | skip
     rw [if_neg (by rw [hhd]; simp)]
     simp only [hbreak]
     rw [if_neg (by simp)]
     rw [show trimChars (("title").data) = ("title").data from by decide]
     simp only [parseValue_space, hv]
     simp)

theorem decLine_date (v : List Char) (acc : DecFM) (mode : Option SeqTarget)
    (hv : parseValue v = .ok (.vstr v)) (hvne : v ≠ []) (hvhead : v.head? ≠ some ' ')
    (hvlast : ∀ c, v.getLast? = some c → isSpaceChar c = false) :
    decLine (("date: ").data ++ v) acc mode = .ok ({ acc with date := v }, none) := by
  have hhd : ((("date: ").data ++ v)).head? = some 'd' := rfl
  have htrim : trimChars (("date: ").data ++ v) = ("date: ").data ++ v := by
    apply trimChars_key_value
    · intro c hc
      have h3 := hhd.symm.trans hc
      injection h3 with h4
      subst h4
      decide
    · exact hvne
    · exact hvlast
  have hseq : seqItemContent (("date: ").data ++ v) = none := by
    unfold seqItemContent
    rw [if_neg]
    intro hcon
    have h3 := hhd.symm.trans hcon
    injection h3 with h4
    exact absurd h4 (by decide)
  have hbreak : breakColon (("date: ").data ++ v) = some (("date").data, ' ' :: v) := rfl
  cases mode <;>
    (unfold decLine
     simp only [htrim]
     rw [if_neg (by simp)]
     rw [if_neg (by rw [hhd]; simp)]
     first
       | simp only [hseq]
       | skip
     rw [if_neg (by rw [hhd]; simp)]
     simp only [hbreak]
     rw [if_neg (by simp)]
     rw [show trimChars (("date").data) = ("date").data from by decide]
     simp only [parseValue_space, hv]
     simp)

theorem decLine_tags_header (acc : DecFM) :
    decLine (("tags:").data) acc none = .ok ({ acc with tags := [] }, some .tagsT) := rfl

theorem decLine_tags_empty (acc : DecFM) :
    decLine (("tags: []").data) acc none = .ok ({ acc with tags := [] }, none) := rfl

theorem decLine_item (v : List Char) (acc : DecFM)
    (hv : parseValue v = .ok (.vstr v)) (hvne : v ≠ []) (hvhead : v.head? ≠ some ' ')
    (hvlast : ∀ c, v.getLast? = some c → isSpaceChar c = false) :
    decLine (("    - ").data ++ v) acc (some .tagsT) =
      .ok ({ acc with tags := acc.tags ++ [v] }, some .tagsT) := by
  have htrim : trimChars (("    - ").data ++ v) = '-' :: ' ' :: v := by
    rw [trimChars_eq_trimRight_drop]
    rw [show ((("    - ").data ++ v)).dropWhile isSpaceChar =
        ('-' :: ' ' :: v).dropWhile isSpaceChar from rfl]
    rw [dropWhile_eq_self_of_head (by
      intro c hc
      have h3 : some '-' = some c := hc
      injection h3 with h4
      subst h4
      decide)]
    apply trimRightChars_eq_self
    intro c hc
    rw [show ('-' :: ' ' :: v) = ['-', ' '] ++ v from rfl, List.getLast?_append] at hc
    cases hl : v.getLast? with
    | none =>
      rw [List.getLast?_eq_none_iff] at hl
      exact absurd hl hvne
    | some c2 =>
      rw [hl] at hc
      have h2 : some c2 = some c := hc
      injection h2 with h3
      exact h3 ▸ hvlast c2 hl
  have hseq : seqItemContent ('-' :: ' ' :: v) = some v := by
    unfold seqItemContent
    rw [if_pos (show (('-' :: ' ' :: v)).head? = some '-' from rfl)]
    rw [if_neg (by simp), if_pos (show (('-' :: ' ' :: v)).tail.head? = some ' ' from rfl)]
    rfl
  unfold decLine
  simp only [htrim]
  rw [if_neg (by simp)]
  rw [if_neg (by simp)]
  simp only [hseq, hv]

theorem map_id_of_all {α : Type} (f : α → α) :
    ∀ (l : List α), (∀ x ∈ l, f x = x) → l.map f = l
  | [], _ => rfl
  | a :: l, h => by
    rw [List.map_cons, h a (List.mem_cons_self _ _),
      map_id_of_all f l (fun x hx => h x (List.mem_cons_of_mem _ hx))]

theorem decLinesAux_items : ∀ (ts : List String) (rest : List (List Char)) (acc : DecFM),
    (∀ t ∈ ts, plainSafeChars t.data = true) →
    decLinesAux ((ts.map (fun t => ("    - ").data ++ (emitScalar t).data)) ++ rest) acc
        (some .tagsT) =
      decLinesAux rest { acc with tags := acc.tags ++ ts.map (fun t => t.data) } (some .tagsT)
  | [], rest, acc, _ => by
    simp only [List.map_nil, List.nil_append, List.append_nil]
  | t :: ts, rest, acc, h => by
    have hps := h t (List.mem_cons_self _ _)
    have hE : emitScalar t = t := by
      unfold emitScalar
      rw [if_pos hps]
    obtain ⟨htne2, htsp2, htlast2, _, _, _⟩ := plainSafe_facts hps
    have hstep := decLine_item t.data acc (parseValue_plain hps) htne2 htsp2 htlast2
    have hcons : decLinesAux
        (((t :: ts).map (fun t => ("    - ").data ++ (emitScalar t).data)) ++ rest) acc
          (some .tagsT) =
        decLinesAux ((ts.map (fun t => ("    - ").data ++ (emitScalar t).data)) ++ rest)
          { acc with tags := acc.tags ++ [t.data] } (some .tagsT) := by
      show (match decLine (("    - ").data ++ (emitScalar t).data) acc (some SeqTarget.tagsT) with
            | Except.error e => Except.error e
            | Except.ok (acc2, mode2) =>
              decLinesAux ((ts.map (fun t => ("    - ").data ++ (emitScalar t).data)) ++ rest)
                acc2 mode2) =
          decLinesAux ((ts.map (fun t => ("    - ").data ++ (emitScalar t).data)) ++ rest)
            { acc with tags := acc.tags ++ [t.data] } (some SeqTarget.tagsT)
      rw [hE, hstep]
    rw [hcons, decLinesAux_items ts rest _ (fun u hu => h u (List.mem_cons_of_mem _ hu))]
    simp [List.append_assoc]

theorem decLinesAux_tags (tags : List String) (acc : DecFM)
    (h : ∀ t ∈ tags, plainSafeChars t.data = true) :
    decLinesAux (splitOnCharC '\n' (tagsChars tags)) acc none =
      .ok { acc with tags := tags.map (fun t => t.data) } := by
  cases tags with
  | nil =>
    show decLinesAux [("tags: []").data, []] acc none = _
    rw [decLinesAux_cons, decLine_tags_empty]
    rfl
  | cons t ts =>
    have hsplit : splitOnCharC '\n' (tagsChars (t :: ts)) =
        ("tags:").data ::
          (((t :: ts).map (fun t => ("    - ").data ++ (emitScalar t).data)) ++ [[]]) := by
      rw [show tagsChars (t :: ts) = ("tags:").data ++ '\n' :: tagsItems (t :: ts) from rfl]
      rw [splitOnCharC_append, splitOnCharC_no_sep _ _ (by decide), tagsItems_lines]
      rfl
    rw [hsplit, decLinesAux_cons, decLine_tags_header]
    show decLinesAux (((t :: ts).map (fun t => ("    - ").data ++ (emitScalar t).data)) ++ [[]])
        { acc with tags := [] } (some SeqTarget.tagsT) =
      Except.ok { acc with tags := (t :: ts).map (fun t => t.data) }
    rw [decLinesAux_items (t :: ts) [[]] _ h]
    rfl

/-! ### C7 — serialize∘decode round trip -/

/-- C7 counterexample: the metadata block `\ntitle: t\ndate: "12"\n`
decodes successfully (the quoted scalar `"12"` decodes into the string
date field), but serializing the resulting note and decoding the result
does not reproduce the note: `removeQuotesFromDateField` rewrites the
emitted `date: "12"` line to the unquoted `date: 12`, which yaml.v3 then
resolves as an integer and refuses to unmarshal into the string `Date`
field, so the round-trip decode fails instead of returning the same
title, date and tags. -/
theorem c7_counterexample :
    decodeFrontMatter "\ntitle: t\ndate: \"12\"\n" = .ok ⟨"t", "12", []⟩ ∧
    removeQuotesFromDateField (yamlMarshalFM ⟨"t", "12", []⟩) "12" =
      "title: t\ndate: 12\ntags: []\n" ∧
    decodeFrontMatter (removeQuotesFromDateField (yamlMarshalFM ⟨"t", "12", []⟩) "12") =
      .error "cannot unmarshal int into string value" :=
  ⟨by decide, by decide, by decide⟩

/-- C7 (amended): round trip on the domain the emitter actually
inverts — for a front matter whose title and tags are plain-safe scalars
and whose date is a valid `YYYY-MM-DD` date (the invariant every
persisted note satisfies), decoding the serialized metadata block
(`yaml.Marshal` followed by `removeQuotesFromDateField`) yields the same
title, the same date string, and the same tags in the same order; and
the serialized block carries the date as the unquoted line
`date: <raw value>`. -/
theorem c7_round_trip_amended (fm : FrontMatter) (d : Date)
    (ht : plainSafeChars fm.title.data = true)
    (htags : ∀ t ∈ fm.tags, plainSafeChars t.data = true)
    (hd : parseDate fm.date = some d) :
    decodeFrontMatter (removeQuotesFromDateField (yamlMarshalFM fm) fm.date) = .ok fm ∧
    (("date: ").data ++ fm.date.data) ∈
      splitOnCharC '\n' (removeQuotesFromDateField (yamlMarshalFM fm) fm.date).data := by
  obtain ⟨hdv, hdnl, hdne, hdsp, hdlast⟩ := dateChars_facts hd
  obtain ⟨htne, htsp, htlast, _, htnl, _⟩ := plainSafe_facts ht
  have hT : emitScalar fm.title = fm.title := by
    unfold emitScalar
    rw [if_pos ht]
  have hYdata : (yamlMarshalFM fm).data =
      (("title: ").data ++ fm.title.data) ++ '\n' ::
        ((("date: ").data ++ (emitScalar fm.date).data) ++ '\n' :: tagsChars fm.tags) := by
    show ("title: ").data ++ (emitScalar fm.title).data ++ '\n' ::
        ((("date: ").data) ++ (emitScalar fm.date).data ++ '\n' :: tagsChars fm.tags) = _
    rw [hT]
  have htl_nl : '\n' ∉ ("title: ").data ++ fm.title.data := by
    intro hm
    rcases List.mem_append.mp hm with hm | hm
    · revert hm
      decide
    · exact htnl hm
  have hdlq_nl : '\n' ∉ ("date: ").data ++ (emitScalar fm.date).data := by
    intro hm
    rcases List.mem_append.mp hm with hm | hm
    · revert hm
      decide
    · exact emitScalar_no_newline fm.date hm
  have hsplitY : splitOnCharC '\n' (yamlMarshalFM fm).data =
      (("title: ").data ++ fm.title.data) ::
        ((("date: ").data ++ (emitScalar fm.date).data) ::
          splitOnCharC '\n' (tagsChars fm.tags)) := by
    rw [hYdata, splitOnCharC_append, splitOnCharC_no_sep _ _ htl_nl,
      splitOnCharC_append, splitOnCharC_no_sep _ _ hdlq_nl]
    rfl
  have hsw_t : startsWithDateKey (("title: ").data ++ fm.title.data) = false := rfl
  have hsw_d : startsWithDateKey (("date: ").data ++ (emitScalar fm.date).data) = true := rfl
  have htags_sw : ∀ l ∈ splitOnCharC '\n' (tagsChars fm.tags),
      startsWithDateKey l = false := by
    cases hts : fm.tags with
    | nil =>
      intro l hl
      have hsp : splitOnCharC '\n' (tagsChars ([] : List String)) =
          [("tags: []").data, []] := by decide
      rw [hsp] at hl
      rcases List.mem_cons.mp hl with rfl | hl
      · rfl
      rcases List.mem_cons.mp hl with rfl | hl
      · rfl
      · exact absurd hl (List.not_mem_nil _)
    | cons t ts =>
      intro l hl
      rw [show tagsChars (t :: ts) = ("tags:").data ++ '\n' :: tagsItems (t :: ts) from rfl,
        splitOnCharC_append, splitOnCharC_no_sep _ _ (by decide), tagsItems_lines] at hl
      rcases List.mem_append.mp hl with h1 | h1
      · rcases List.mem_cons.mp h1 with rfl | h1
        · rfl
        · exact absurd h1 (List.not_mem_nil _)
      · rcases List.mem_append.mp h1 with h2 | h2
        · rcases List.mem_map.mp h2 with ⟨u, _, rfl⟩
          rfl
        · rcases List.mem_cons.mp h2 with rfl | h2
          · rfl
          · exact absurd h2 (List.not_mem_nil _)
  have hmaptags : (splitOnCharC '\n' (tagsChars fm.tags)).map
      (fun line => if startsWithDateKey line then ("date: ").data ++ fm.date.data else line) =
      splitOnCharC '\n' (tagsChars fm.tags) := by
    apply map_id_of_all
    intro l hl
    rw [htags_sw l hl]
    simp
  have hSsplit : splitOnCharC '\n'
      (removeQuotesFromDateField (yamlMarshalFM fm) fm.date).data =
      (("title: ").data ++ fm.title.data) ::
        ((("date: ").data ++ fm.date.data) :: splitOnCharC '\n' (tagsChars fm.tags)) := by
    show splitOnCharC '\n' (joinWithChar '\n'
        ((splitOnCharC '\n' (yamlMarshalFM fm).data).map
          (fun line =>
            if startsWithDateKey line then ("date: ").data ++ fm.date.data else line))) = _
    rw [hsplitY, List.map_cons, List.map_cons, hsw_t, hsw_d, hmaptags]
    simp only [Bool.false_eq_true, if_false, if_true]
    apply splitOnCharC_join
    · simp
    · intro l hl
      rcases List.mem_cons.mp hl with rfl | hl
      · exact htl_nl
      rcases List.mem_cons.mp hl with rfl | hl
      · intro hm
        rcases List.mem_append.mp hm with hm | hm
        · revert hm
          decide
        · exact hdnl hm
      · exact mem_splitOnCharC_no_sep '\n' (tagsChars fm.tags) l hl
  refine ⟨?_, by rw [hSsplit]; exact List.mem_cons_of_mem _ (List.mem_cons_self _ _)⟩
  have h1 : decLine (("title: ").data ++ fm.title.data) {} none =
      .ok (⟨fm.title.data, [], []⟩, none) :=
    decLine_title _ _ _ (parseValue_plain ht) htne htsp htlast
  have h2 : decLine (("date: ").data ++ fm.date.data) ⟨fm.title.data, [], []⟩ none =
      .ok (⟨fm.title.data, fm.date.data, []⟩, none) :=
    decLine_date _ _ _ hdv hdne hdsp hdlast
  have h3 : decLinesAux (splitOnCharC '\n' (tagsChars fm.tags))
      ⟨fm.title.data, fm.date.data, []⟩ none =
      .ok ⟨fm.title.data, fm.date.data, fm.tags.map (fun t => t.data)⟩ :=
    decLinesAux_tags fm.tags _ htags
  have hrun : decLinesAux
      ((("title: ").data ++ fm.title.data) ::
        ((("date: ").data ++ fm.date.data) :: splitOnCharC '\n' (tagsChars fm.tags))) {} none =
      .ok ⟨fm.title.data, fm.date.data, fm.tags.map (fun t => t.data)⟩ := by
    rw [decLinesAux_cons, h1]
    show decLinesAux
        ((("date: ").data ++ fm.date.data) :: splitOnCharC '\n' (tagsChars fm.tags))
        ⟨fm.title.data, [], []⟩ none = _
    rw [decLinesAux_cons, h2]
    exact h3
  have hmapid : (fm.tags.map (fun t => t.data)).map (fun l => (⟨l⟩ : String)) = fm.tags := by
    rw [List.map_map]
    exact map_id_of_all _ fm.tags (fun x _ => rfl)
  show decodeFrontMatterChars (removeQuotesFromDateField (yamlMarshalFM fm) fm.date).data =
    .ok fm
  unfold decodeFrontMatterChars
  rw [hSsplit, hrun]
  show Except.ok (⟨⟨fm.title.data⟩, ⟨fm.date.data⟩,
    (fm.tags.map (fun t => t.data)).map (fun l => (⟨l⟩ : String))⟩ : FrontMatter) = _
  rw [hmapid]

theorem c7_round_trip_amended_witness :
    plainSafeChars ("My Note" : String).data = true ∧
    (∀ t ∈ (["work"] : List String), plainSafeChars t.data = true) ∧
    parseDate "2024-09-12" = some ⟨2024, 9, 12⟩ ∧
    (decodeFrontMatter (removeQuotesFromDateField
        (yamlMarshalFM ⟨"My Note", "2024-09-12", ["work"]⟩) "2024-09-12") =
      .ok ⟨"My Note", "2024-09-12", ["work"]⟩ ∧
     (("date: ").data ++ ("2024-09-12" : String).data) ∈
       splitOnCharC '\n' (removeQuotesFromDateField
         (yamlMarshalFM ⟨"My Note", "2024-09-12", ["work"]⟩) "2024-09-12").data) :=
  ⟨by decide, by decide, by decide,
   c7_round_trip_amended ⟨"My Note", "2024-09-12", ["work"]⟩ ⟨2024, 9, 12⟩
     (by decide) (by decide) (by decide)⟩
